import Mathlib

/-!
Verification development for the ulog embedded logging runtime.

The definitions model, in a shallow embedding, the C runtime `src/ulog.c`
(COBS encoder, circular packet queue with overrun latch, transmit/drain,
flush), the C++ variant `src/ulog.cpp` (one-byte ids, 16-slot ring,
notify inside reserve, 6-byte scratch), the string chunker and argument
dispatch of `include/ulog.h`, and the call-site identifier derivation of
`include/ulog_port.h` / `include/ulog_avr_none_gnu.h`.  Machine integers
are modelled as `Nat` (with explicit `% 2^w` where C truncation matters)
or as `UInt8` for byte data.
-/

namespace Ulog

/-- COBS framing byte: `#define COBS_EOF 0xA6` in ulog.c (`EOF` in ulog.cpp). -/
def COBS_EOF : UInt8 := 0xA6

/-- Pointwise update of a byte memory, used to model stores into `tx_encoded`. -/
def upd (f : Nat → UInt8) (i : Nat) (v : UInt8) : Nat → UInt8 :=
  fun j => if j = i then v else f j

/-- State of the imperative COBS encoder of `cobs_encode` (ulog.c lines 123-148):
the scratch buffer `tx_encoded` (as unbounded byte memory), the local variables
`write_index`, `code_index` and `code`, plus `maxWritten`, an instrumentation
field recording the highest buffer index stored to (for the bounds claims). -/
structure CobsState where
  buf : Nat → UInt8
  writeIndex : Nat
  codeIndex : Nat
  code : Nat
  maxWritten : Nat

/-- A store `tx_encoded[i] = v`, recording the index in `maxWritten`. -/
def cobsWrite (st : CobsState) (i : Nat) (v : UInt8) : CobsState :=
  { st with buf := upd st.buf i v, maxWritten := max st.maxWritten i }

/-- One iteration of the `while (read_index < length)` loop of `cobs_encode`:
on the sentinel, backpatch the pending code byte and open a new run; otherwise
copy the byte and bump `code` (a `uint8_t` in C, hence the `% 256`). -/
def cobsStep (st : CobsState) (b : UInt8) : CobsState :=
  if b = COBS_EOF then
    { cobsWrite st st.codeIndex (UInt8.ofNat st.code) with
      codeIndex := st.writeIndex, writeIndex := st.writeIndex + 1, code := 1 }
  else
    { cobsWrite st st.writeIndex b with
      writeIndex := st.writeIndex + 1, code := (st.code + 1) % 256 }

/-- The epilogue of `cobs_encode`: write the final pending code byte, then the
terminating sentinel, returning `write_index` as the encoded length. -/
def cobsFinish (st : CobsState) : CobsState :=
  let st1 := cobsWrite st st.codeIndex (UInt8.ofNat st.code)
  let st2 := cobsWrite st1 st1.writeIndex COBS_EOF
  { st2 with writeIndex := st2.writeIndex + 1 }

/-- Initial encoder state: `read_index = 0`, `write_index = 1`, `code_index = 0`,
`code = 1` over a scratch buffer with contents `buf0`. -/
def cobsInit (buf0 : Nat → UInt8) : CobsState :=
  { buf := buf0, writeIndex := 1, codeIndex := 0, code := 1, maxWritten := 0 }

theorem cobsInit_writeIndex (buf0 : Nat → UInt8) : (cobsInit buf0).writeIndex = 1 := rfl

theorem cobsInit_codeIndex (buf0 : Nat → UInt8) : (cobsInit buf0).codeIndex = 0 := rfl

theorem cobsInit_code (buf0 : Nat → UInt8) : (cobsInit buf0).code = 1 := rfl

theorem cobsInit_maxWritten (buf0 : Nat → UInt8) : (cobsInit buf0).maxWritten = 0 := rfl

/-- `cobs_encode(input, length)` of ulog.c / ulog.cpp, run on a scratch buffer
with initial contents `buf0`.  The final `writeIndex` is the returned encoded
length; the frame is the buffer prefix of that length. -/
def cobs_encode (buf0 : Nat → UInt8) (input : List UInt8) : CobsState :=
  cobsFinish (input.foldl cobsStep (cobsInit buf0))

/-- The encoded frame handed to the sink: the first `write_index` bytes of the
scratch buffer after `cobs_encode` (initial buffer contents are irrelevant and
taken to be zero). -/
def cobsFrame (input : List UInt8) : List UInt8 :=
  (List.range (cobs_encode (fun _ => 0) input).writeIndex).map
    (cobs_encode (fun _ => 0) input).buf

/-- Functional description of the frame bytes after the first code byte,
following the classical consistent-overhead scheme of spec section 4.4: data
bytes are copied, each sentinel of the input becomes the code byte of the next
run, and the frame ends with one sentinel. -/
def cobsTail : List UInt8 → List UInt8
  | [] => [COBS_EOF]
  | b :: rest =>
    if b = COBS_EOF then
      UInt8.ofNat ((rest.takeWhile (· != COBS_EOF)).length + 1) :: cobsTail rest
    else
      b :: cobsTail rest

/-- Functional description of the whole frame: the first code byte (distance to
the first sentinel of the input, or to end of frame) followed by `cobsTail`. -/
def cobsRefFrame (l : List UInt8) : List UInt8 :=
  UInt8.ofNat ((l.takeWhile (· != COBS_EOF)).length + 1) :: cobsTail l

theorem cobsTail_length (l : List UInt8) : (cobsTail l).length = l.length + 1 := by
  induction l with
  | nil => rfl
  | cons b rest ih =>
    by_cases hb : b = COBS_EOF <;> simp [cobsTail, hb, ih]

theorem cobsFinish_writeIndex (st : CobsState) :
    (cobsFinish st).writeIndex = st.writeIndex + 1 := rfl

theorem cobsFinish_buf (st : CobsState) (j : Nat) :
    (cobsFinish st).buf j =
      if j = st.writeIndex then COBS_EOF
      else if j = st.codeIndex then UInt8.ofNat st.code
      else st.buf j := rfl

theorem cobsFinish_maxWritten (st : CobsState) :
    (cobsFinish st).maxWritten = max (max st.maxWritten st.codeIndex) st.writeIndex := rfl

/-- One-pass characterisation of the encoder loop plus epilogue, generalised
over the starting state: the final `write_index`, the untouched regions of the
scratch buffer, the backpatched pending code byte, the bytes written from
`write_index` on, and the highest index written. -/
theorem cobs_go_spec (input : List UInt8) : ∀ st : CobsState,
    st.codeIndex < st.writeIndex → st.code + input.length ≤ 255 →
    (cobsFinish (input.foldl cobsStep st)).writeIndex
        = st.writeIndex + input.length + 1
    ∧ (∀ j, j < st.codeIndex →
        (cobsFinish (input.foldl cobsStep st)).buf j = st.buf j)
    ∧ (∀ j, st.codeIndex < j → j < st.writeIndex →
        (cobsFinish (input.foldl cobsStep st)).buf j = st.buf j)
    ∧ (cobsFinish (input.foldl cobsStep st)).buf st.codeIndex
        = UInt8.ofNat (st.code + (input.takeWhile (· != COBS_EOF)).length)
    ∧ (List.range' st.writeIndex (input.length + 1)).map
        (cobsFinish (input.foldl cobsStep st)).buf = cobsTail input
    ∧ (cobsFinish (input.foldl cobsStep st)).maxWritten
        = max st.maxWritten (st.writeIndex + input.length) := by
  induction input with
  | nil =>
    intro st hlt _
    refine ⟨by rw [List.foldl_nil, cobsFinish_writeIndex]; simp, ?_, ?_, ?_, ?_, ?_⟩
    · intro j hj
      rw [List.foldl_nil, cobsFinish_buf, if_neg (by omega), if_neg (by omega)]
    · intro j hj1 hj2
      rw [List.foldl_nil, cobsFinish_buf, if_neg (by omega), if_neg (by omega)]
    · rw [List.foldl_nil, cobsFinish_buf, if_neg (by omega), if_pos rfl]
      simp
    · rw [List.foldl_nil]
      simp only [List.length_nil, Nat.zero_add, List.range'_one, List.map_cons,
        List.map_nil, cobsTail]
      rw [cobsFinish_buf, if_pos rfl]
    · rw [List.foldl_nil, cobsFinish_maxWritten]
      simp only [List.length_nil, Nat.add_zero]
      omega
  | cons b rest ih =>
    intro st hlt hbound
    simp only [List.length_cons] at hbound
    by_cases hb : b = COBS_EOF
    · -- sentinel byte: backpatch the pending code byte and open a new run
      subst hb
      have hci : (cobsStep st COBS_EOF).codeIndex = st.writeIndex := by
        simp [cobsStep, cobsWrite]
      have hwi : (cobsStep st COBS_EOF).writeIndex = st.writeIndex + 1 := by
        simp [cobsStep, cobsWrite]
      have hco : (cobsStep st COBS_EOF).code = 1 := by
        simp [cobsStep, cobsWrite]
      have hbuf : (cobsStep st COBS_EOF).buf = upd st.buf st.codeIndex (UInt8.ofNat st.code) := by
        simp [cobsStep, cobsWrite]
      have hmw : (cobsStep st COBS_EOF).maxWritten = max st.maxWritten st.codeIndex := by
        simp [cobsStep, cobsWrite]
      obtain ⟨ha, hb2, hc, hd, he, hf⟩ :=
        ih (cobsStep st COBS_EOF) (by rw [hci, hwi]; omega) (by rw [hco]; omega)
      rw [hwi] at ha
      rw [hci, hbuf] at hb2
      rw [hci, hwi, hbuf] at hc
      rw [hci, hco] at hd
      rw [hwi] at he
      rw [hmw, hwi] at hf
      refine ⟨?_, ?_, ?_, ?_, ?_, ?_⟩
      · rw [List.foldl_cons, ha]
        simp only [List.length_cons]
        omega
      · intro j hj
        rw [List.foldl_cons, hb2 j (by omega)]
        simp only [upd]
        rw [if_neg (by omega)]
      · intro j hj1 hj2
        rw [List.foldl_cons, hb2 j (by omega)]
        simp only [upd]
        rw [if_neg (by omega)]
      · rw [List.foldl_cons, hb2 st.codeIndex (by omega)]
        simp only [upd, if_pos rfl, List.takeWhile_cons]
        simp
      · rw [List.foldl_cons]
        have hlen : (COBS_EOF :: rest).length + 1 = rest.length + 1 + 1 := by simp
        rw [hlen, List.range'_succ, List.map_cons, hd, he]
        simp only [cobsTail, if_pos rfl]
        congr 2
        omega
      · rw [List.foldl_cons, hf]
        simp only [List.length_cons]
        omega
    · -- ordinary byte: copy it and extend the current run
      have hci : (cobsStep st b).codeIndex = st.codeIndex := by
        simp [cobsStep, cobsWrite, hb]
      have hwi : (cobsStep st b).writeIndex = st.writeIndex + 1 := by
        simp [cobsStep, cobsWrite, hb]
      have hco : (cobsStep st b).code = st.code + 1 := by
        simp only [cobsStep, cobsWrite, if_neg hb]
        omega
      have hbuf : (cobsStep st b).buf = upd st.buf st.writeIndex b := by
        simp [cobsStep, cobsWrite, hb]
      have hmw : (cobsStep st b).maxWritten = max st.maxWritten st.writeIndex := by
        simp [cobsStep, cobsWrite, hb]
      obtain ⟨ha, hb2, hc, hd, he, hf⟩ :=
        ih (cobsStep st b) (by rw [hci, hwi]; omega) (by rw [hco]; omega)
      rw [hwi] at ha
      rw [hci, hbuf] at hb2
      rw [hci, hwi, hbuf] at hc
      rw [hci, hco] at hd
      rw [hwi] at he
      rw [hmw, hwi] at hf
      refine ⟨?_, ?_, ?_, ?_, ?_, ?_⟩
      · rw [List.foldl_cons, ha]
        simp only [List.length_cons]
        omega
      · intro j hj
        rw [List.foldl_cons, hb2 j (by omega)]
        simp only [upd]
        rw [if_neg (by omega)]
      · intro j hj1 hj2
        rw [List.foldl_cons, hc j (by omega) (by omega)]
        simp only [upd]
        rw [if_neg (by omega)]
      · rw [List.foldl_cons, hd]
        simp [List.takeWhile_cons, hb]
        congr 1
        omega
      · rw [List.foldl_cons]
        have hlen : (b :: rest).length + 1 = rest.length + 1 + 1 := by simp
        rw [hlen, List.range'_succ, List.map_cons]
        rw [hc st.writeIndex (by omega) (by omega), he]
        simp [cobsTail, hb, upd]
      · rw [List.foldl_cons, hf]
        simp only [List.length_cons]
        omega

theorem cobs_encode_writeIndex (buf0 : Nat → UInt8) (input : List UInt8)
    (h : input.length ≤ 254) :
    (cobs_encode buf0 input).writeIndex = input.length + 2 := by
  have hg := (cobs_go_spec input (cobsInit buf0)
    (by rw [cobsInit_codeIndex, cobsInit_writeIndex]; omega)
    (by rw [cobsInit_code]; omega)).1
  rw [cobsInit_writeIndex] at hg
  unfold cobs_encode
  rw [hg]
  omega

theorem cobs_encode_maxWritten (buf0 : Nat → UInt8) (input : List UInt8)
    (h : input.length ≤ 254) :
    (cobs_encode buf0 input).maxWritten = input.length + 1 := by
  have hg := (cobs_go_spec input (cobsInit buf0)
    (by rw [cobsInit_codeIndex, cobsInit_writeIndex]; omega)
    (by rw [cobsInit_code]; omega)).2.2.2.2.2
  rw [cobsInit_writeIndex, cobsInit_maxWritten] at hg
  unfold cobs_encode
  rw [hg]
  omega

theorem cobsFrame_eq_ref (input : List UInt8) (h : input.length ≤ 254) :
    cobsFrame input = cobsRefFrame input := by
  obtain ⟨ha, _, _, hd, he, _⟩ := cobs_go_spec input (cobsInit (fun _ => 0))
    (by rw [cobsInit_codeIndex, cobsInit_writeIndex]; omega)
    (by rw [cobsInit_code]; omega)
  rw [cobsInit_writeIndex] at ha he
  rw [cobsInit_codeIndex, cobsInit_code] at hd
  unfold cobsFrame cobs_encode
  rw [ha]
  have h2 : 1 + input.length + 1 = input.length + 1 + 1 := by omega
  rw [h2, List.range_eq_range', List.range'_succ, List.map_cons, Nat.zero_add, hd, he]
  unfold cobsRefFrame
  congr 2
  omega

/-- Fuel-indexed host-side reference decoder.  Modelled from the spec: section
4.4 "Decoding" (host-side, not part of this repository): read a code byte `c`;
stop when a sentinel is read; otherwise copy `c - 1` following bytes, emit a
synthetic sentinel when `c < 255`, and repeat.  The fuel argument only forces
termination; `cobsDecode` supplies sufficient fuel. -/
def cobsDecodeF : Nat → List UInt8 → List UInt8
  | 0, _ => []
  | _ + 1, [] => []
  | fuel + 1, c :: rest =>
    if c = COBS_EOF then []
    else
      rest.take (c.toNat - 1)
        ++ (if c.toNat < 255 then [COBS_EOF] else [])
        ++ cobsDecodeF fuel (rest.drop (c.toNat - 1))

/-- The reference decoder of spec section 4.4 applied to a byte stream. -/
def cobsDecode (l : List UInt8) : List UInt8 := cobsDecodeF l.length l

theorem cobsDecodeF_nil (fuel : Nat) : cobsDecodeF fuel [] = [] := by
  cases fuel <;> rfl

theorem cobsDecodeF_fuel : ∀ f1 : Nat, ∀ f2 : Nat, ∀ l : List UInt8,
    l.length ≤ f1 → l.length ≤ f2 → cobsDecodeF f1 l = cobsDecodeF f2 l := by
  intro f1
  induction f1 with
  | zero =>
    intro f2 l h1 _
    have : l = [] := List.eq_nil_of_length_eq_zero (by omega)
    subst this
    rw [cobsDecodeF_nil, cobsDecodeF_nil]
  | succ f ih =>
    intro f2 l h1 h2
    match l with
    | [] => rw [cobsDecodeF_nil, cobsDecodeF_nil]
    | c :: rest =>
      match f2 with
      | 0 => simp at h2
      | f2' + 1 =>
        simp only [cobsDecodeF]
        simp only [List.length_cons] at h1 h2
        rw [ih f2' (rest.drop (c.toNat - 1)) (by simp; omega) (by simp; omega)]

theorem cobsDecode_cons (c : UInt8) (rest : List UInt8) :
    cobsDecode (c :: rest) =
      if c = COBS_EOF then []
      else
        rest.take (c.toNat - 1)
          ++ (if c.toNat < 255 then [COBS_EOF] else [])
          ++ cobsDecode (rest.drop (c.toNat - 1)) := by
  show cobsDecodeF (rest.length + 1) (c :: rest) = _
  simp only [cobsDecodeF]
  by_cases hc : c = COBS_EOF
  · rw [if_pos hc, if_pos hc]
  · rw [if_neg hc, if_neg hc]
    rw [cobsDecodeF_fuel rest.length (rest.drop (c.toNat - 1)).length
      (rest.drop (c.toNat - 1)) (by simp) (by omega)]
    rfl

theorem dropWhile_head_false {α : Type} (p : α → Bool) :
    ∀ (l : List α) (x : α) (r : List α), l.dropWhile p = x :: r → p x = false := by
  intro l
  induction l with
  | nil => intro x r h; simp at h
  | cons a t ih =>
    intro x r h
    rw [List.dropWhile_cons] at h
    by_cases hp : p a
    · rw [if_pos hp] at h
      exact ih x r h
    · rw [if_neg hp] at h
      injection h with h1 h2
      subst h1
      simpa using hp

/-- Every byte list is sentinel-free or splits at its first sentinel. -/
theorem eof_split (l : List UInt8) :
    (∀ b ∈ l, b ≠ COBS_EOF) ∨
      ∃ g r, l = g ++ COBS_EOF :: r ∧ (∀ b ∈ g, b ≠ COBS_EOF) := by
  cases hd : l.dropWhile (· != COBS_EOF) with
  | nil =>
    left
    intro b hb
    have := List.dropWhile_eq_nil_iff.mp hd b hb
    simpa using this
  | cons x r =>
    right
    have hx : ((x != COBS_EOF) : Bool) = false := dropWhile_head_false _ l x r hd
    have hx2 : x = COBS_EOF := by simpa using hx
    refine ⟨l.takeWhile (· != COBS_EOF), r, ?_, ?_⟩
    · conv_lhs => rw [← List.takeWhile_append_dropWhile (p := (· != COBS_EOF)) (l := l)]
      rw [hd, hx2]
    · intro b hb
      have := List.mem_takeWhile_imp hb
      simpa using this

theorem takeWhile_of_no_eof (l : List UInt8) (h : ∀ b ∈ l, b ≠ COBS_EOF) :
    l.takeWhile (· != COBS_EOF) = l := by
  rw [List.takeWhile_eq_self_iff]
  intro x hx
  simpa using h x hx

theorem takeWhile_append_eof (g r : List UInt8) (h : ∀ b ∈ g, b ≠ COBS_EOF) :
    (g ++ COBS_EOF :: r).takeWhile (· != COBS_EOF) = g := by
  induction g with
  | nil => simp [List.takeWhile_cons]
  | cons a t ih =>
    have ha : a ≠ COBS_EOF := h a (by simp)
    simp only [List.cons_append, List.takeWhile_cons]
    rw [if_pos (by simpa using ha), ih (fun b hb => h b (by simp [hb]))]

theorem cobsTail_of_no_eof (l : List UInt8) (h : ∀ b ∈ l, b ≠ COBS_EOF) :
    cobsTail l = l ++ [COBS_EOF] := by
  induction l with
  | nil => rfl
  | cons a t ih =>
    have ha : a ≠ COBS_EOF := h a (by simp)
    simp only [cobsTail, if_neg ha, List.cons_append]
    rw [ih (fun b hb => h b (by simp [hb]))]

theorem cobsTail_append_eof (g r : List UInt8) (h : ∀ b ∈ g, b ≠ COBS_EOF) :
    cobsTail (g ++ COBS_EOF :: r)
      = g ++ UInt8.ofNat ((r.takeWhile (· != COBS_EOF)).length + 1) :: cobsTail r := by
  induction g with
  | nil => simp [cobsTail]
  | cons a t ih =>
    have ha : a ≠ COBS_EOF := h a (by simp)
    simp only [List.cons_append, cobsTail, if_neg ha, List.append_eq]
    rw [ih (fun b hb => h b (by simp [hb]))]

theorem ofNat_ne_eof (k : Nat) (h : k % 256 ≠ 166) : UInt8.ofNat k ≠ COBS_EOF := by
  intro he
  have h2 : (UInt8.ofNat k).toNat = COBS_EOF.toNat := by rw [he]
  have h3 : (UInt8.ofNat k).toNat = k % 256 := rfl
  have h4 : COBS_EOF.toNat = 166 := rfl
  omega

theorem toNat_ofNat_small (k : Nat) (h : k < 256) : (UInt8.ofNat k).toNat = k := by
  have h3 : (UInt8.ofNat k).toNat = k % 256 := rfl
  omega

theorem cobsTail_decomp : ∀ l : List UInt8, l.length ≤ 164 →
    ∃ m, cobsTail l = m ++ [COBS_EOF] ∧ COBS_EOF ∉ m := by
  intro l
  induction l with
  | nil => intro _; exact ⟨[], rfl, by simp⟩
  | cons b rest ih =>
    intro h
    simp only [List.length_cons] at h
    obtain ⟨m, hm, hmem⟩ := ih (by omega)
    by_cases hb : b = COBS_EOF
    · subst hb
      refine ⟨UInt8.ofNat ((rest.takeWhile (· != COBS_EOF)).length + 1) :: m, ?_, ?_⟩
      · simp [cobsTail, hm]
      · have hlen : (rest.takeWhile (· != COBS_EOF)).length ≤ rest.length :=
          (List.takeWhile_sublist _).length_le
        simp only [List.mem_cons, not_or]
        exact ⟨Ne.symm (ofNat_ne_eof _ (by omega)), hmem⟩
    · refine ⟨b :: m, ?_, ?_⟩
      · simp only [cobsTail, if_neg hb, hm, List.cons_append]
      · simp only [List.mem_cons, not_or]
        exact ⟨fun he => hb he.symm, hmem⟩

theorem cobsRefFrame_decomp (l : List UInt8) (h : l.length ≤ 164) :
    ∃ m, cobsRefFrame l = m ++ [COBS_EOF] ∧ COBS_EOF ∉ m := by
  obtain ⟨m, hm, hmem⟩ := cobsTail_decomp l h
  have hlen : (l.takeWhile (· != COBS_EOF)).length ≤ l.length :=
    (List.takeWhile_sublist _).length_le
  refine ⟨UInt8.ofNat ((l.takeWhile (· != COBS_EOF)).length + 1) :: m, ?_, ?_⟩
  · simp only [cobsRefFrame, hm, List.cons_append]
  · simp only [List.mem_cons, not_or]
    exact ⟨Ne.symm (ofNat_ne_eof _ (by omega)), hmem⟩

theorem cobsRefFrame_decode_aux : ∀ n : Nat, ∀ l : List UInt8,
    l.length ≤ n → l.length ≤ 164 →
    cobsDecode (cobsRefFrame l) = l ++ [COBS_EOF] := by
  intro n
  induction n with
  | zero =>
    intro l h1 _
    have : l = [] := List.eq_nil_of_length_eq_zero (by omega)
    subst this
    decide
  | succ k ih =>
    intro l h1 h164
    rcases eof_split l with hfree | ⟨g, r, hsplit, hg⟩
    · simp only [cobsRefFrame]
      rw [takeWhile_of_no_eof l hfree, cobsTail_of_no_eof l hfree]
      rw [cobsDecode_cons]
      rw [if_neg (ofNat_ne_eof (l.length + 1) (by omega))]
      rw [toNat_ofNat_small (l.length + 1) (by omega)]
      have ht : l.length + 1 - 1 = l.length := by omega
      rw [ht, List.take_left, List.drop_left]
      rw [if_pos (by omega)]
      have hdec : cobsDecode [COBS_EOF] = [] := by decide
      rw [hdec]
      simp
    · subst hsplit
      simp only [List.length_append, List.length_cons] at h1 h164
      simp only [cobsRefFrame]
      rw [takeWhile_append_eof g r hg, cobsTail_append_eof g r hg]
      rw [cobsDecode_cons]
      rw [if_neg (ofNat_ne_eof (g.length + 1) (by omega))]
      rw [toNat_ofNat_small (g.length + 1) (by omega)]
      have ht : g.length + 1 - 1 = g.length := by omega
      rw [ht, List.take_left, List.drop_left]
      rw [if_pos (by omega)]
      have hrf : UInt8.ofNat ((r.takeWhile (· != COBS_EOF)).length + 1) :: cobsTail r
          = cobsRefFrame r := rfl
      rw [hrf, ih r (by omega) (by omega)]
      simp

theorem cobsRefFrame_decode (l : List UInt8) (h : l.length ≤ 164) :
    cobsDecode (cobsRefFrame l) = l ++ [COBS_EOF] :=
  cobsRefFrame_decode_aux l.length l le_rfl h

/-- C6 (amended): for every packet body of at most 6 bytes, the frame produced
by `cobs_encode` contains the sentinel byte 0xA6 exactly once, as its final
byte, and the reference decoder of spec section 4.4 yields the original packet
bytes followed by one synthetic sentinel (the decoder, exactly as described,
emits its synthetic sentinel after the final group as well, just before
reading the closing frame sentinel). -/
theorem cobs_frame_sentinel_and_decode (input : List UInt8) (h : input.length ≤ 6) :
    (cobsFrame input).count COBS_EOF = 1
    ∧ (cobsFrame input).getLast? = some COBS_EOF
    ∧ cobsDecode (cobsFrame input) = input ++ [COBS_EOF] := by
  have hf := cobsFrame_eq_ref input (by omega)
  obtain ⟨m, hm, hmem⟩ := cobsRefFrame_decomp input (by omega)
  refine ⟨?_, ?_, ?_⟩
  · rw [hf, hm, List.count_append, List.count_eq_zero.mpr hmem]
    simp [List.count_singleton]
  · rw [hf, hm, List.getLast?_append]
    simp
  · rw [hf]
    exact cobsRefFrame_decode input (by omega)

theorem cobs_frame_sentinel_and_decode_witness :
    ([0x11, 0xA6, 0x00, 0x7F] : List UInt8).length ≤ 6
    ∧ ((cobsFrame [0x11, 0xA6, 0x00, 0x7F]).count COBS_EOF = 1
      ∧ (cobsFrame [0x11, 0xA6, 0x00, 0x7F]).getLast? = some COBS_EOF
      ∧ cobsDecode (cobsFrame [0x11, 0xA6, 0x00, 0x7F])
          = [0x11, 0xA6, 0x00, 0x7F] ++ [COBS_EOF]) :=
  ⟨by decide, cobs_frame_sentinel_and_decode [0x11, 0xA6, 0x00, 0x7F] (by decide)⟩

/-- C6 counterexample: applying the reference decoder of spec section 4.4
exactly as written to the frame of the one-byte body `[0x42]` yields
`[0x42, 0xA6]`, not the original body `[0x42]`: the step "emit a synthetic
sentinel when c < 255" also fires for the final group, before the closing
sentinel is read. -/
theorem cobs_decode_not_exact :
    cobsDecode (cobsFrame [0x42]) = [0x42, 0xA6]
    ∧ cobsDecode (cobsFrame [0x42]) ≠ [0x42] := by
  decide

/-- ULOG_QUEUE_SIZE: the default circular buffer capacity of ulog.c. -/
def ULOG_QUEUE_SIZE : Nat := 64

/-- Reserved overrun identifier (`#define ULOG_ID_OVERRUN 0x7FFF`). -/
def ULOG_ID_OVERRUN : Nat := 0x7FFF

/-- Continuation flag: MSB of the 16-bit id (`#define ULOG_ID_CONTINUATION 0x8000`). -/
def ULOG_ID_CONTINUATION : Nat := 0x8000

/-- A `LogPacket` slot of ulog.c: `payload_len` and the `payload` union view
(`id_msb :: id_lsb :: data`); only the bytes stored by an enqueue are kept,
which are exactly the `payload_len` bytes the drain later reads. -/
structure LogPacket where
  payload_len : Nat
  payload : List UInt8
deriving DecidableEq

/-- Shared state of ulog.c: the circular buffer indices `log_head`/`log_tail`,
the slot array, and the `buffer_overrun` latch/counter byte. -/
structure UlogState where
  log_head : Nat
  log_tail : Nat
  buffer : Nat → LogPacket
  buffer_overrun : Nat

/-- State at program start: indices zero, counter zero, slots zeroed. -/
def ulogInitState : UlogState :=
  { log_head := 0, log_tail := 0, buffer := fun _ => ⟨0, []⟩, buffer_overrun := 0 }

/-- `reserve_log_packet` (ulog.c lines 86-115): returns the reserved slot index
(or none) together with the updated state.  While `buffer_overrun` is nonzero
the queue is not probed and the counter saturates at 255; on a full queue the
latch is set to 1. -/
def reserve_log_packet (s : UlogState) : Option Nat × UlogState :=
  if s.buffer_overrun = 0 then
    if (s.log_head + 1) % ULOG_QUEUE_SIZE ≠ s.log_tail then
      (some s.log_head, { s with log_head := (s.log_head + 1) % ULOG_QUEUE_SIZE })
    else
      (none, { s with buffer_overrun := 1 })
  else
    (none, { s with buffer_overrun :=
      if s.buffer_overrun < 255 then s.buffer_overrun + 1 else s.buffer_overrun })

/-- Big-endian id bytes stored by every enqueue:
`dst->id_msb = (uint8_t)(id >> 8)` and `dst->id_lsb = (uint8_t)(id & 0xFF)`. -/
def idBytes (id : Nat) : List UInt8 :=
  [UInt8.ofNat (id / 256 % 256), UInt8.ofNat (id % 256)]

/-- The packet body written by an enqueue for data bytes `vals`:
the two id bytes followed by the data bytes. -/
def mkPacketBody (id : Nat) (vals : List UInt8) : List UInt8 :=
  idBytes id ++ vals

/-- Common shape of `ulog_detail_enqueue_1` .. `ulog_detail_enqueue_4`
(ulog.c lines 217-283): reserve a slot; on success store
`payload_len = 2 + k` and the id/data bytes and call `_ULOG_PORT_NOTIFY()`
(returned as the Bool); on failure return without notifying. -/
def ulog_detail_enqueue_n (id : Nat) (vals : List UInt8) (s : UlogState) :
    UlogState × Bool :=
  match reserve_log_packet s with
  | (some slot, s1) =>
    ({ s1 with buffer := fun j =>
        if j = slot then ⟨2 + vals.length, mkPacketBody id vals⟩ else s1.buffer j },
      true)
  | (none, s1) => (s1, false)

def ulog_detail_enqueue_1 (id : Nat) (v0 : UInt8) (s : UlogState) : UlogState × Bool :=
  ulog_detail_enqueue_n id [v0] s

def ulog_detail_enqueue_2 (id : Nat) (v0 v1 : UInt8) (s : UlogState) : UlogState × Bool :=
  ulog_detail_enqueue_n id [v0, v1] s

def ulog_detail_enqueue_3 (id : Nat) (v0 v1 v2 : UInt8) (s : UlogState) : UlogState × Bool :=
  ulog_detail_enqueue_n id [v0, v1, v2] s

def ulog_detail_enqueue_4 (id : Nat) (v0 v1 v2 v3 : UInt8) (s : UlogState) : UlogState × Bool :=
  ulog_detail_enqueue_n id [v0, v1, v2, v3] s

/-- `ulog_detail_enqueue` (ulog.c lines 207-215): the zero-argument enqueue.
Unlike `ulog_detail_enqueue_1..4` its body contains no `_ULOG_PORT_NOTIFY()`
call, so the returned notification flag is false even on success. -/
def ulog_detail_enqueue (id : Nat) (s : UlogState) : UlogState × Bool :=
  match reserve_log_packet s with
  | (some slot, s1) =>
    ({ s1 with buffer := fun j =>
        if j = slot then ⟨2 + 0, mkPacketBody id []⟩ else s1.buffer j },
      false)
  | (none, s1) => (s1, false)

/-- Packet body of the synthetic overrun packet built in `_ulog_transmit`
(ulog.c lines 174-178): id `0x7FFF` big-endian and the count field, which the
source initialises to the literal `0` (the `buffer_overrun` counter is never
copied into it). -/
def overrun_body : List UInt8 :=
  [UInt8.ofNat (ULOG_ID_OVERRUN / 256 % 256), UInt8.ofNat (ULOG_ID_OVERRUN % 256), 0]

/-- The `payload_len` bytes of a slot that the drain hands to `cobs_encode`. -/
def slotBody (p : LogPacket) : List UInt8 := p.payload.take p.payload_len

/-- `_ulog_transmit` (ulog.c lines 157-192), parameterised by the transport
readiness `_ULOG_UART_TX_READY()`.  Returns the new state and the packet body
handed to `cobs_encode` and then `_ULOG_PORT_SEND_DATA` (none when nothing is
sent).  The frame on the wire is `cobsFrame` of that body. -/
def _ulog_transmit (ready : Bool) (s : UlogState) : UlogState × Option (List UInt8) :=
  if ready then
    if s.log_tail ≠ s.log_head then
      ({ s with log_tail := (s.log_tail + 1) % ULOG_QUEUE_SIZE },
        some (slotBody (s.buffer s.log_tail)))
    else if 0 < s.buffer_overrun then
      ({ s with buffer_overrun := 0 }, some overrun_body)
    else
      (s, none)
  else
    (s, none)

/-- `ulog_flush` (ulog.c lines 285-296): repeatedly call `_ulog_transmit`
while `log_tail != log_head`.  The C loop has no fuel; the `fuel` argument
bounds the number of iterations modelled, and `none` means the loop has not
terminated within `fuel` iterations. -/
def ulog_flush : Nat → Bool → UlogState → Option UlogState
  | 0, _, s => if s.log_tail = s.log_head then some s else none
  | fuel + 1, ready, s =>
    if s.log_tail = s.log_head then some s
    else ulog_flush fuel ready (_ulog_transmit ready s).1

/-- Run `_ulog_transmit` k times, collecting the packet bodies handed to the
sink in order. -/
def drainN : Nat → Bool → UlogState → UlogState × List (List UInt8)
  | 0, _, s => (s, [])
  | k + 1, ready, s =>
    ((drainN k ready (_ulog_transmit ready s).1).1,
      ((_ulog_transmit ready s).2.toList
        ++ (drainN k ready (_ulog_transmit ready s).1).2))

/-- Enqueue a list of (id, data bytes) packets in order. -/
def enqueueList (l : List (Nat × List UInt8)) (s : UlogState) : UlogState :=
  l.foldl (fun s p => (ulog_detail_enqueue_n p.1 p.2 s).1) s

/-- Number of packets in the ring. -/
def queueCount (s : UlogState) : Nat :=
  (s.log_head + ULOG_QUEUE_SIZE - s.log_tail) % ULOG_QUEUE_SIZE

/-- The packet bodies currently in the ring, oldest first. -/
def queueList (s : UlogState) : List (List UInt8) :=
  (List.range (queueCount s)).map
    (fun i => slotBody (s.buffer ((s.log_tail + i) % ULOG_QUEUE_SIZE)))

/-- Well-formedness: the indices are in range, as they are in C where both are
`uint8_t` only ever assigned values reduced `% ULOG_QUEUE_SIZE`. -/
def UlogWF (s : UlogState) : Prop :=
  s.log_head < ULOG_QUEUE_SIZE ∧ s.log_tail < ULOG_QUEUE_SIZE

theorem mkPacketBody_length (id : Nat) (vals : List UInt8) :
    (mkPacketBody id vals).length = 2 + vals.length := by
  simp [mkPacketBody, idBytes]
  omega

theorem slotBody_new (id : Nat) (vals : List UInt8) :
    slotBody ⟨2 + vals.length, mkPacketBody id vals⟩ = mkPacketBody id vals := by
  show (mkPacketBody id vals).take (2 + vals.length) = mkPacketBody id vals
  rw [← mkPacketBody_length id vals, List.take_length]

/-- The state after a successful reservation plus packet store: head advanced,
packet written at the old head slot. -/
def enqPush (id : Nat) (vals : List UInt8) (s : UlogState) : UlogState :=
  { s with
    log_head := (s.log_head + 1) % ULOG_QUEUE_SIZE,
    buffer := fun j =>
      if j = s.log_head then ⟨2 + vals.length, mkPacketBody id vals⟩ else s.buffer j }

theorem enqPush_log_head (id : Nat) (vals : List UInt8) (s : UlogState) :
    (enqPush id vals s).log_head = (s.log_head + 1) % ULOG_QUEUE_SIZE := rfl

theorem enqPush_log_tail (id : Nat) (vals : List UInt8) (s : UlogState) :
    (enqPush id vals s).log_tail = s.log_tail := rfl

theorem enqPush_buffer_overrun (id : Nat) (vals : List UInt8) (s : UlogState) :
    (enqPush id vals s).buffer_overrun = s.buffer_overrun := rfl

theorem enqPush_buffer (id : Nat) (vals : List UInt8) (s : UlogState) (j : Nat) :
    (enqPush id vals s).buffer j =
      if j = s.log_head then ⟨2 + vals.length, mkPacketBody id vals⟩ else s.buffer j := rfl

/-- A successful reservation: with the latch clear and room in the ring,
`ulog_detail_enqueue_n` stores the packet at the old head, advances the head,
notifies, and appends the body to the queue contents. -/
theorem enqueue_n_success (id : Nat) (vals : List UInt8) (s : UlogState)
    (hwf : UlogWF s) (hov : s.buffer_overrun = 0)
    (hroom : queueCount s < ULOG_QUEUE_SIZE - 1) :
    ulog_detail_enqueue_n id vals s = (enqPush id vals s, true)
    ∧ UlogWF (enqPush id vals s)
    ∧ (enqPush id vals s).buffer_overrun = 0
    ∧ queueCount (enqPush id vals s) = queueCount s + 1
    ∧ queueList (enqPush id vals s) = queueList s ++ [mkPacketBody id vals] := by
  obtain ⟨hh, ht⟩ := hwf
  rw [show ULOG_QUEUE_SIZE = 64 from rfl] at hh ht hroom
  rw [queueCount, show ULOG_QUEUE_SIZE = 64 from rfl] at hroom
  have hne : (s.log_head + 1) % ULOG_QUEUE_SIZE ≠ s.log_tail := by
    rw [show ULOG_QUEUE_SIZE = 64 from rfl]
    omega
  have hres : reserve_log_packet s
      = (some s.log_head, { s with log_head := (s.log_head + 1) % ULOG_QUEUE_SIZE }) := by
    rw [reserve_log_packet, if_pos hov, if_pos hne]
  have hcnt : queueCount (enqPush id vals s) = queueCount s + 1 := by
    rw [queueCount, queueCount, enqPush_log_head, enqPush_log_tail,
      show ULOG_QUEUE_SIZE = 64 from rfl]
    omega
  refine ⟨?_, ?_, hov, hcnt, ?_⟩
  · rw [ulog_detail_enqueue_n, hres]
    rfl
  · constructor
    · rw [enqPush_log_head, show ULOG_QUEUE_SIZE = 64 from rfl]
      omega
    · rw [enqPush_log_tail, show ULOG_QUEUE_SIZE = 64 from rfl]
      exact ht
  · rw [queueList, queueList, hcnt, List.range_succ, List.map_append]
    congr 1
    · apply List.map_congr_left
      intro i hi
      rw [List.mem_range] at hi
      rw [enqPush_log_tail, enqPush_buffer]
      have hidx : (s.log_tail + i) % ULOG_QUEUE_SIZE ≠ s.log_head := by
        rw [show ULOG_QUEUE_SIZE = 64 from rfl]
        rw [queueCount, show ULOG_QUEUE_SIZE = 64 from rfl] at hi
        omega
      rw [if_neg hidx]
    · have hidx : (s.log_tail + queueCount s) % ULOG_QUEUE_SIZE = s.log_head := by
        rw [show ULOG_QUEUE_SIZE = 64 from rfl,
          queueCount, show ULOG_QUEUE_SIZE = 64 from rfl]
        omega
      simp only [List.map_cons, List.map_nil]
      rw [enqPush_log_tail, enqPush_buffer, hidx]
      simp [slotBody_new]

/-- The state after a dequeue: tail advanced one slot. -/
def popState (s : UlogState) : UlogState :=
  { s with log_tail := (s.log_tail + 1) % ULOG_QUEUE_SIZE }

theorem popState_log_head (s : UlogState) : (popState s).log_head = s.log_head := rfl

theorem popState_log_tail (s : UlogState) :
    (popState s).log_tail = (s.log_tail + 1) % ULOG_QUEUE_SIZE := rfl

theorem popState_buffer (s : UlogState) : (popState s).buffer = s.buffer := rfl

theorem popState_buffer_overrun (s : UlogState) :
    (popState s).buffer_overrun = s.buffer_overrun := rfl

/-- A ready transmit on a non-empty queue pops exactly the oldest packet. -/
theorem transmit_pop (s : UlogState) (hwf : UlogWF s) (hne : queueCount s ≠ 0) :
    _ulog_transmit true s = (popState s, some (slotBody (s.buffer s.log_tail)))
    ∧ UlogWF (popState s)
    ∧ queueCount (popState s) = queueCount s - 1
    ∧ queueList s = slotBody (s.buffer s.log_tail) :: queueList (popState s) := by
  obtain ⟨hh, ht⟩ := hwf
  rw [show ULOG_QUEUE_SIZE = 64 from rfl] at hh ht
  rw [queueCount, show ULOG_QUEUE_SIZE = 64 from rfl] at hne
  have htne : s.log_tail ≠ s.log_head := by omega
  have hcnt : queueCount (popState s) = queueCount s - 1 := by
    rw [queueCount, queueCount, popState_log_head, popState_log_tail,
      show ULOG_QUEUE_SIZE = 64 from rfl]
    omega
  refine ⟨?_, ?_, hcnt, ?_⟩
  · rw [_ulog_transmit, if_pos rfl, if_pos htne]
    rfl
  · constructor
    · rw [popState_log_head, show ULOG_QUEUE_SIZE = 64 from rfl]
      exact hh
    · rw [popState_log_tail, show ULOG_QUEUE_SIZE = 64 from rfl]
      omega
  · rw [queueList, queueList, hcnt]
    obtain ⟨m, hm⟩ : ∃ m, queueCount s = m + 1 := by
      refine ⟨queueCount s - 1, ?_⟩
      rw [queueCount, show ULOG_QUEUE_SIZE = 64 from rfl]
      omega
    rw [hm]
    simp only [Nat.add_sub_cancel]
    rw [List.range_succ_eq_map, List.map_cons, List.map_map]
    have h0 : (s.log_tail + 0) % ULOG_QUEUE_SIZE = s.log_tail := by
      rw [show ULOG_QUEUE_SIZE = 64 from rfl]
      omega
    rw [h0]
    congr 1
    apply List.map_congr_left
    intro i hi
    rw [List.mem_range] at hi
    simp only [Function.comp]
    rw [popState_log_tail, popState_buffer]
    congr 2
    rw [show ULOG_QUEUE_SIZE = 64 from rfl]
    omega

/-- The state after the drain clears the overrun latch. -/
def clearState (s : UlogState) : UlogState := { s with buffer_overrun := 0 }

theorem clearState_log_head (s : UlogState) : (clearState s).log_head = s.log_head := rfl

theorem clearState_log_tail (s : UlogState) : (clearState s).log_tail = s.log_tail := rfl

theorem clearState_buffer (s : UlogState) : (clearState s).buffer = s.buffer := rfl

theorem clearState_buffer_overrun (s : UlogState) : (clearState s).buffer_overrun = 0 := rfl

/-- A ready transmit on an empty queue with a pending overrun emits the
synthetic overrun packet and clears the counter. -/
theorem transmit_overrun (s : UlogState) (hempty : s.log_tail = s.log_head)
    (hov : 0 < s.buffer_overrun) :
    _ulog_transmit true s = (clearState s, some overrun_body) := by
  rw [_ulog_transmit, if_pos rfl, if_neg (by omega), if_pos hov]
  rfl

/-- A ready transmit on an empty queue with a clear latch does nothing. -/
theorem transmit_idle (s : UlogState) (hempty : s.log_tail = s.log_head)
    (hov : s.buffer_overrun = 0) :
    _ulog_transmit true s = (s, none) := by
  rw [_ulog_transmit, if_pos rfl, if_neg (by omega), if_neg (by omega)]

/-- A transmit with the transport not ready does nothing. -/
theorem transmit_not_ready (s : UlogState) : _ulog_transmit false s = (s, none) := by
  rw [_ulog_transmit, if_neg (by simp)]

/-- A reservation against a full ring sets the latch to 1 and fails. -/
theorem enqueue_n_full (id : Nat) (vals : List UInt8) (s : UlogState)
    (hwf : UlogWF s) (hov : s.buffer_overrun = 0)
    (hfull : queueCount s = ULOG_QUEUE_SIZE - 1) :
    ulog_detail_enqueue_n id vals s = ({ s with buffer_overrun := 1 }, false) := by
  obtain ⟨hh, ht⟩ := hwf
  rw [show ULOG_QUEUE_SIZE = 64 from rfl] at hh ht
  rw [queueCount, show ULOG_QUEUE_SIZE = 64 from rfl] at hfull
  have heq : ¬ ((s.log_head + 1) % ULOG_QUEUE_SIZE ≠ s.log_tail) := by
    rw [show ULOG_QUEUE_SIZE = 64 from rfl]
    omega
  rw [ulog_detail_enqueue_n, reserve_log_packet, if_pos hov, if_neg heq]

/-- A reservation in the latched overrun state saturate-increments the counter
and touches nothing else. -/
theorem enqueue_n_overrun (id : Nat) (vals : List UInt8) (s : UlogState)
    (hov : 0 < s.buffer_overrun) :
    ulog_detail_enqueue_n id vals s
      = ({ s with buffer_overrun :=
            if s.buffer_overrun < 255 then s.buffer_overrun + 1 else s.buffer_overrun },
          false) := by
  rw [ulog_detail_enqueue_n, reserve_log_packet, if_neg (by omega)]

/-- Enqueuing a list of packets into a clear ring with enough room: all
reservations succeed and the bodies are appended in order. -/
theorem enqueueList_spec : ∀ (l : List (Nat × List UInt8)) (s : UlogState),
    UlogWF s → s.buffer_overrun = 0 →
    queueCount s + l.length ≤ ULOG_QUEUE_SIZE - 1 →
    UlogWF (enqueueList l s) ∧ (enqueueList l s).buffer_overrun = 0
    ∧ queueCount (enqueueList l s) = queueCount s + l.length
    ∧ queueList (enqueueList l s)
        = queueList s ++ l.map (fun p => mkPacketBody p.1 p.2) := by
  intro l
  induction l with
  | nil =>
    intro s hwf hov _
    exact ⟨hwf, hov, by simp [enqueueList], by simp [enqueueList]⟩
  | cons p rest ih =>
    intro s hwf hov hroom
    rw [show ULOG_QUEUE_SIZE - 1 = 63 from rfl] at hroom
    simp only [List.length_cons] at hroom
    obtain ⟨henq, hwf2, hov2, hcnt2, hlist2⟩ :=
      enqueue_n_success p.1 p.2 s hwf hov
        (by rw [show ULOG_QUEUE_SIZE - 1 = 63 from rfl]; omega)
    have hfold : enqueueList (p :: rest) s = enqueueList rest (enqPush p.1 p.2 s) := by
      rw [enqueueList, List.foldl_cons, henq]
      rfl
    obtain ⟨ihwf, ihov, ihcnt, ihlist⟩ := ih (enqPush p.1 p.2 s) hwf2 hov2
      (by rw [show ULOG_QUEUE_SIZE - 1 = 63 from rfl, hcnt2]; omega)
    rw [hfold]
    refine ⟨ihwf, ihov, ?_, ?_⟩
    · rw [ihcnt, hcnt2]
      simp only [List.length_cons]
      omega
    · rw [ihlist, hlist2]
      simp [List.append_assoc]

/-- Draining a clear ring with enough ticks hands exactly the queue contents
to the sink and leaves the ring empty. -/
theorem drain_spec : ∀ (k : Nat) (s : UlogState), UlogWF s → s.buffer_overrun = 0 →
    queueCount s ≤ k →
    (drainN k true s).2 = queueList s
    ∧ (drainN k true s).1.buffer_overrun = 0
    ∧ UlogWF (drainN k true s).1
    ∧ queueCount (drainN k true s).1 = 0 := by
  intro k
  induction k with
  | zero =>
    intro s hwf hov hc
    have hz : queueCount s = 0 := by omega
    exact ⟨by rw [queueList, hz]; rfl, hov, hwf, hz⟩
  | succ k ih =>
    intro s hwf hov hc
    by_cases hz : queueCount s = 0
    · have hempty : s.log_tail = s.log_head := by
        obtain ⟨hh, ht⟩ := hwf
        rw [show ULOG_QUEUE_SIZE = 64 from rfl] at hh ht
        rw [queueCount, show ULOG_QUEUE_SIZE = 64 from rfl] at hz
        omega
      have htr := transmit_idle s hempty hov
      obtain ⟨ih1, ih2, ih3, ih4⟩ := ih s hwf hov (by omega)
      simp only [drainN, htr]
      exact ⟨by simpa using ih1, ih2, ih3, ih4⟩
    · obtain ⟨htr, hwf2, hcnt2, hlist2⟩ := transmit_pop s hwf hz
      obtain ⟨ih1, ih2, ih3, ih4⟩ := ih (popState s) hwf2
        (by rw [popState_buffer_overrun]; exact hov) (by omega)
      simp only [drainN, htr]
      refine ⟨?_, ih2, ih3, ih4⟩
      simp only [Option.toList_some, List.singleton_append]
      rw [ih1, ← hlist2]

/-- Draining a latched ring: the queue contents come out first, then exactly
one synthetic overrun packet, and the counter is cleared. -/
theorem drain_overrun_spec : ∀ (k : Nat) (s : UlogState), UlogWF s →
    0 < s.buffer_overrun → queueCount s + 1 ≤ k →
    (drainN k true s).2 = queueList s ++ [overrun_body]
    ∧ (drainN k true s).1.buffer_overrun = 0 := by
  intro k
  induction k with
  | zero => intro s _ _ hc; omega
  | succ k ih =>
    intro s hwf hov hc
    by_cases hz : queueCount s = 0
    · have hempty : s.log_tail = s.log_head := by
        obtain ⟨hh, ht⟩ := hwf
        rw [show ULOG_QUEUE_SIZE = 64 from rfl] at hh ht
        rw [queueCount, show ULOG_QUEUE_SIZE = 64 from rfl] at hz
        omega
      have htr := transmit_overrun s hempty hov
      obtain ⟨d1, d2, _, _⟩ := drain_spec k (clearState s) hwf
        (clearState_buffer_overrun s) (by rw [show queueCount (clearState s) = queueCount s from rfl]; omega)
      simp only [drainN, htr]
      refine ⟨?_, d2⟩
      simp only [Option.toList_some, List.singleton_append]
      rw [d1]
      rw [show queueList (clearState s) = queueList s from rfl]
      rw [queueList, hz]
      rfl
    · obtain ⟨htr, hwf2, hcnt2, hlist2⟩ := transmit_pop s hwf hz
      obtain ⟨ih1, ih2⟩ := ih (popState s) hwf2
        (by rw [popState_buffer_overrun]; exact hov) (by omega)
      simp only [drainN, htr]
      refine ⟨?_, ih2⟩
      simp only [Option.toList_some, List.singleton_append]
      rw [ih1, hlist2]
      rfl

theorem enqueueList_append (a b : List (Nat × List UInt8)) (s : UlogState) :
    enqueueList (a ++ b) s = enqueueList b (enqueueList a s) := by
  simp [enqueueList, List.foldl_append]

theorem enqueueList_cons (p : Nat × List UInt8) (rest : List (Nat × List UInt8))
    (s : UlogState) :
    enqueueList (p :: rest) s
      = enqueueList rest ((ulog_detail_enqueue_n p.1 p.2 s).1) := by
  simp [enqueueList]

theorem queueCount_set_overrun (s : UlogState) (v : Nat) :
    queueCount { s with buffer_overrun := v } = queueCount s := rfl

theorem queueList_set_overrun (s : UlogState) (v : Nat) :
    queueList { s with buffer_overrun := v } = queueList s := rfl

/-- Enqueue attempts in the latched state only saturate the counter. -/
theorem enqueueList_latched : ∀ (l : List (Nat × List UInt8)) (s : UlogState),
    0 < s.buffer_overrun → s.buffer_overrun ≤ 255 →
    enqueueList l s
      = { s with buffer_overrun := min (s.buffer_overrun + l.length) 255 } := by
  intro l
  induction l with
  | nil =>
    intro s hpos hle
    have hmin : min (s.buffer_overrun + ([] : List (Nat × List UInt8)).length) 255
        = s.buffer_overrun := by
      simp only [List.length_nil]
      omega
    rw [hmin, enqueueList]
    rfl
  | cons p rest ih =>
    intro s hpos hle
    rw [enqueueList_cons, enqueue_n_overrun p.1 p.2 s hpos]
    have hrec := ih { s with buffer_overrun :=
        if s.buffer_overrun < 255 then s.buffer_overrun + 1 else s.buffer_overrun }
      (by show 0 < if s.buffer_overrun < 255 then s.buffer_overrun + 1 else s.buffer_overrun
          split <;> omega)
      (by show (if s.buffer_overrun < 255 then s.buffer_overrun + 1 else s.buffer_overrun) ≤ 255
          split <;> omega)
    rw [hrec]
    congr 1
    show min ((if s.buffer_overrun < 255 then s.buffer_overrun + 1 else s.buffer_overrun)
        + rest.length) 255 = min (s.buffer_overrun + (p :: rest).length) 255
    simp only [List.length_cons]
    split <;> omega

/-- C8: starting from the initial state, enqueuing any sequence of packets
that all fit (hence all succeed) and then draining with the transport ready
hands the packet bodies to the sink in exactly the enqueue order; moreover any
single `_ulog_transmit` invocation removes at most one packet from the ring. -/
theorem fifo_order (l : List (Nat × List UInt8)) (k : Nat)
    (hlen : l.length ≤ 63) (hk : l.length ≤ k) :
    (drainN k true (enqueueList l ulogInitState)).2
      = l.map (fun p => mkPacketBody p.1 p.2)
    ∧ (∀ (ready : Bool) (s : UlogState), UlogWF s →
        queueCount s - 1 ≤ queueCount ((_ulog_transmit ready s).1)
        ∧ queueCount ((_ulog_transmit ready s).1) ≤ queueCount s) := by
  constructor
  · obtain ⟨hwf1, hov1, hcnt1, hql1⟩ := enqueueList_spec l ulogInitState
      ⟨by decide, by decide⟩ rfl
      (by rw [show queueCount ulogInitState = 0 from rfl,
            show ULOG_QUEUE_SIZE - 1 = 63 from rfl]
          omega)
    obtain ⟨hd1, _, _, _⟩ := drain_spec k (enqueueList l ulogInitState) hwf1 hov1
      (by rw [hcnt1, show queueCount ulogInitState = 0 from rfl]; omega)
    rw [hd1, hql1, show queueList ulogInitState = [] from rfl, List.nil_append]
  · intro ready s hwf
    cases ready with
    | false =>
      rw [transmit_not_ready]
      show queueCount s - 1 ≤ queueCount s ∧ queueCount s ≤ queueCount s
      omega
    | true =>
      by_cases hz : queueCount s = 0
      · by_cases hov : s.buffer_overrun = 0
        · have hempty : s.log_tail = s.log_head := by
            obtain ⟨hh, ht⟩ := hwf
            rw [show ULOG_QUEUE_SIZE = 64 from rfl] at hh ht
            rw [queueCount, show ULOG_QUEUE_SIZE = 64 from rfl] at hz
            omega
          rw [transmit_idle s hempty hov]
          show queueCount s - 1 ≤ queueCount s ∧ queueCount s ≤ queueCount s
          omega
        · have hempty : s.log_tail = s.log_head := by
            obtain ⟨hh, ht⟩ := hwf
            rw [show ULOG_QUEUE_SIZE = 64 from rfl] at hh ht
            rw [queueCount, show ULOG_QUEUE_SIZE = 64 from rfl] at hz
            omega
          rw [transmit_overrun s hempty (by omega)]
          show queueCount s - 1 ≤ queueCount (clearState s)
            ∧ queueCount (clearState s) ≤ queueCount s
          rw [show queueCount (clearState s) = queueCount s from rfl]
          omega
      · obtain ⟨htr, _, hcnt2, _⟩ := transmit_pop s hwf hz
        rw [htr]
        show queueCount s - 1 ≤ queueCount (popState s)
          ∧ queueCount (popState s) ≤ queueCount s
        rw [hcnt2]
        omega

theorem fifo_order_witness :
    (([(5, [0xAB]), (6, [0xCD, 0xEF])] : List (Nat × List UInt8)).length ≤ 63
      ∧ ([(5, [0xAB]), (6, [0xCD, 0xEF])] : List (Nat × List UInt8)).length ≤ 3)
    ∧ ((drainN 3 true (enqueueList [(5, [0xAB]), (6, [0xCD, 0xEF])] ulogInitState)).2
        = ([(5, [0xAB]), (6, [0xCD, 0xEF])] : List (Nat × List UInt8)).map
            (fun p => mkPacketBody p.1 p.2)
      ∧ (∀ (ready : Bool) (s : UlogState), UlogWF s →
          queueCount s - 1 ≤ queueCount ((_ulog_transmit ready s).1)
          ∧ queueCount ((_ulog_transmit ready s).1) ≤ queueCount s)) :=
  ⟨⟨by decide, by decide⟩,
    fifo_order [(5, [0xAB]), (6, [0xCD, 0xEF])] 3 (by decide) (by decide)⟩

/-- C1 evaluation: enqueuing `Q + n` packets (Q = 64) with the drain blocked
delivers, once the drain runs, exactly the first `Q - 1` user packets followed
by one synthetic overrun packet whose id is `0x7FFF` — but whose payload byte
is the literal `0` stored by `_ulog_transmit`, not the counter value
`min (n + 1) 255` that the state actually holds; the counter is cleared after
the overrun packet is emitted, and nothing else is emitted. -/
theorem overrun_run (n : Nat) (l : List (Nat × List UInt8)) (hlen : l.length = 64 + n)
    (k : Nat) (hk : 64 ≤ k) :
    (enqueueList l ulogInitState).buffer_overrun = min (n + 1) 255
    ∧ (drainN k true (enqueueList l ulogInitState)).2
        = (l.take 63).map (fun p => mkPacketBody p.1 p.2) ++ [overrun_body]
    ∧ (drainN k true (enqueueList l ulogInitState)).1.buffer_overrun = 0
    ∧ overrun_body = [0x7F, 0xFF, 0x00] := by
  obtain ⟨hwf1, hov1, hcnt1, hql1⟩ := enqueueList_spec (l.take 63) ulogInitState
    ⟨by decide, by decide⟩ rfl
    (by rw [show queueCount ulogInitState = 0 from rfl, List.length_take,
          show ULOG_QUEUE_SIZE - 1 = 63 from rfl]
        omega)
  obtain ⟨p, rest, hd, hrl⟩ : ∃ p rest, l.drop 63 = p :: rest ∧ rest.length = n := by
    have hdl : (l.drop 63).length = n + 1 := by
      rw [List.length_drop]
      omega
    cases hdrop : l.drop 63 with
    | nil => rw [hdrop] at hdl; simp at hdl
    | cons p rest =>
      rw [hdrop] at hdl
      simp only [List.length_cons] at hdl
      exact ⟨p, rest, rfl, by omega⟩
  have hfold : enqueueList l ulogInitState
      = enqueueList rest ((ulog_detail_enqueue_n p.1 p.2
          (enqueueList (l.take 63) ulogInitState)).1) := by
    conv_lhs => rw [← List.take_append_drop 63 l]
    rw [enqueueList_append, hd, enqueueList_cons]
  have hfull := enqueue_n_full p.1 p.2 (enqueueList (l.take 63) ulogInitState) hwf1 hov1
    (by rw [hcnt1, show queueCount ulogInitState = 0 from rfl, List.length_take]
        rw [show ULOG_QUEUE_SIZE - 1 = 63 from rfl]
        omega)
  have hlatch := enqueueList_latched rest
    { enqueueList (l.take 63) ulogInitState with buffer_overrun := 1 }
    (by show (0:Nat) < 1; omega) (by show (1:Nat) ≤ 255; omega)
  have hstate : enqueueList l ulogInitState
      = { enqueueList (l.take 63) ulogInitState with
          buffer_overrun := min (1 + rest.length) 255 } := by
    rw [hfold, hfull, hlatch]
  have hbo : (enqueueList l ulogInitState).buffer_overrun = min (n + 1) 255 := by
    rw [hstate]
    show min (1 + rest.length) 255 = min (n + 1) 255
    omega
  refine ⟨hbo, ?_, ?_, rfl⟩
  · obtain ⟨hdr1, _⟩ := drain_overrun_spec k (enqueueList l ulogInitState)
      (by rw [hstate]; exact hwf1)
      (by rw [hbo]; omega)
      (by rw [hstate, queueCount_set_overrun, hcnt1,
            show queueCount ulogInitState = 0 from rfl, List.length_take]
          omega)
    rw [hdr1, hstate, queueList_set_overrun, hql1,
      show queueList ulogInitState = [] from rfl, List.nil_append]
  · obtain ⟨_, hdr2⟩ := drain_overrun_spec k (enqueueList l ulogInitState)
      (by rw [hstate]; exact hwf1)
      (by rw [hbo]; omega)
      (by rw [hstate, queueCount_set_overrun, hcnt1,
            show queueCount ulogInitState = 0 from rfl, List.length_take]
          omega)
    exact hdr2

theorem overrun_run_witness :
    ((List.replicate 64 ((5:Nat), ([0xAA] : List UInt8))).length = 64 + 0 ∧ 64 ≤ 64)
    ∧ ((enqueueList (List.replicate 64 (5, [0xAA])) ulogInitState).buffer_overrun
          = min (0 + 1) 255
      ∧ (drainN 64 true (enqueueList (List.replicate 64 (5, [0xAA])) ulogInitState)).2
          = ((List.replicate 64 ((5:Nat), ([0xAA] : List UInt8))).take 63).map
              (fun p => mkPacketBody p.1 p.2) ++ [overrun_body]
      ∧ (drainN 64 true
            (enqueueList (List.replicate 64 (5, [0xAA])) ulogInitState)).1.buffer_overrun = 0
      ∧ overrun_body = [0x7F, 0xFF, 0x00]) :=
  ⟨⟨by decide, by decide⟩,
    overrun_run 0 (List.replicate 64 (5, [0xAA])) (by decide) 64 (by decide)⟩

/-- C9: the overrun state latches.  In any state with the latch set, a reserve
attempt fails and saturate-increments the counter by exactly the source's
conditional, with an outcome that neither reads nor changes `log_head` or
`log_tail` (the same equation holds for every value of the two indices, so the
queue is never probed); enqueues keep the latch set; and the only step that
clears the latch is a ready transmit that finds the queue empty, which emits
the synthetic overrun packet. -/
theorem overrun_latch (s : UlogState) (hov : 0 < s.buffer_overrun) :
    (∀ h t, reserve_log_packet { s with log_head := h, log_tail := t }
        = (none, { s with
            log_head := h,
            log_tail := t,
            buffer_overrun :=
              if s.buffer_overrun < 255 then s.buffer_overrun + 1
              else s.buffer_overrun }))
    ∧ (∀ id vals, 0 < ((ulog_detail_enqueue_n id vals s).1).buffer_overrun)
    ∧ (∀ ready : Bool, (_ulog_transmit ready s).1.buffer_overrun = 0 →
        ready = true ∧ s.log_tail = s.log_head
        ∧ (_ulog_transmit ready s).2 = some overrun_body) := by
  refine ⟨?_, ?_, ?_⟩
  · intro h t
    rw [reserve_log_packet, if_neg (by show ¬ s.buffer_overrun = 0; omega)]
  · intro id vals
    rw [enqueue_n_overrun id vals s hov]
    show 0 < if s.buffer_overrun < 255 then s.buffer_overrun + 1 else s.buffer_overrun
    split <;> omega
  · intro ready hclear
    cases ready with
    | false =>
      rw [transmit_not_ready] at hclear
      have hclear2 : s.buffer_overrun = 0 := hclear
      exact absurd hclear2 (by omega)
    | true =>
      by_cases hne : s.log_tail ≠ s.log_head
      · have htr : _ulog_transmit true s
            = (popState s, some (slotBody (s.buffer s.log_tail))) := by
          rw [_ulog_transmit, if_pos rfl, if_pos hne]
          rfl
        rw [htr, popState_buffer_overrun] at hclear
        exact absurd hclear (by omega)
      · have hempty : s.log_tail = s.log_head := by omega
        rw [transmit_overrun s hempty hov]
        exact ⟨rfl, hempty, rfl⟩

/-- A concrete latched state used to instantiate the latch invariant. -/
def latchedExample : UlogState := { ulogInitState with buffer_overrun := 7 }

theorem overrun_latch_witness :
    (0 < latchedExample.buffer_overrun)
    ∧ ((∀ h t, reserve_log_packet { latchedExample with
          log_head := h, log_tail := t }
        = (none, { latchedExample with
            log_head := h, log_tail := t,
            buffer_overrun :=
              if latchedExample.buffer_overrun < 255 then latchedExample.buffer_overrun + 1
              else latchedExample.buffer_overrun }))
    ∧ (∀ id vals, 0 < ((ulog_detail_enqueue_n id vals latchedExample).1).buffer_overrun)
    ∧ (∀ ready : Bool, (_ulog_transmit ready latchedExample).1.buffer_overrun = 0 →
        ready = true ∧ latchedExample.log_tail = latchedExample.log_head
        ∧ (_ulog_transmit ready latchedExample).2 = some overrun_body)) :=
  ⟨by decide, overrun_latch latchedExample (by decide)⟩

/-- C10: with the transport ready at every invocation, `ulog_flush` terminates
within `queueCount` iterations (each iteration removes exactly one packet) and
leaves the queue empty; with the transport persistently not ready and the
queue non-empty, the loop never exits, whatever iteration bound is allowed. -/
theorem flush_termination (s : UlogState) (hwf : UlogWF s) :
    (∃ s', ulog_flush (queueCount s) true s = some s' ∧ s'.log_tail = s'.log_head)
    ∧ (s.log_tail ≠ s.log_head → ∀ fuel, ulog_flush fuel false s = none) := by
  constructor
  · have main : ∀ (k : Nat) (t : UlogState), UlogWF t → queueCount t ≤ k →
        ∃ t', ulog_flush k true t = some t' ∧ t'.log_tail = t'.log_head := by
      intro k
      induction k with
      | zero =>
        intro t hwf2 hc
        obtain ⟨hh, ht⟩ := hwf2
        rw [show ULOG_QUEUE_SIZE = 64 from rfl] at hh ht
        rw [queueCount, show ULOG_QUEUE_SIZE = 64 from rfl] at hc
        have hempty : t.log_tail = t.log_head := by omega
        exact ⟨t, by rw [ulog_flush, if_pos hempty], hempty⟩
      | succ k ih =>
        intro t hwf2 hc
        by_cases hempty : t.log_tail = t.log_head
        · exact ⟨t, by rw [ulog_flush, if_pos hempty], hempty⟩
        · have hz : queueCount t ≠ 0 := by
            obtain ⟨hh, ht⟩ := hwf2
            rw [show ULOG_QUEUE_SIZE = 64 from rfl] at hh ht
            rw [queueCount, show ULOG_QUEUE_SIZE = 64 from rfl]
            omega
          obtain ⟨htr, hwf3, hcnt3, _⟩ := transmit_pop t hwf2 hz
          obtain ⟨t', h1, h2⟩ := ih (popState t) hwf3 (by omega)
          refine ⟨t', ?_, h2⟩
          rw [ulog_flush, if_neg hempty, htr]
          exact h1
    exact main (queueCount s) s hwf le_rfl
  · intro hne fuel
    induction fuel with
    | zero => rw [ulog_flush, if_neg hne]
    | succ fuel ih =>
      rw [ulog_flush, if_neg hne, transmit_not_ready]
      exact ih

theorem flush_termination_witness :
    UlogWF ((ulog_detail_enqueue_2 300 1 2 ulogInitState).1)
    ∧ ((∃ s', ulog_flush (queueCount ((ulog_detail_enqueue_2 300 1 2 ulogInitState).1)) true
          ((ulog_detail_enqueue_2 300 1 2 ulogInitState).1) = some s'
        ∧ s'.log_tail = s'.log_head)
      ∧ (((ulog_detail_enqueue_2 300 1 2 ulogInitState).1).log_tail
            ≠ ((ulog_detail_enqueue_2 300 1 2 ulogInitState).1).log_head →
          ∀ fuel, ulog_flush fuel false ((ulog_detail_enqueue_2 300 1 2 ulogInitState).1)
            = none)) :=
  ⟨⟨by decide, by decide⟩,
    flush_termination ((ulog_detail_enqueue_2 300 1 2 ulogInitState).1)
      ⟨by decide, by decide⟩⟩

/-- `_ULOG_MAX_STR_LENGTH` (ulog.h line 138): default 16. -/
def _ULOG_MAX_STR_LENGTH : Nat := 16

/-- Byte `i` of a C string modelled as the byte list `l`; memory past the end
of the list reads 0, so the model covers every C string whose bytes up to and
including its first NUL are contained in `l`. -/
def cstr (l : List UInt8) (i : Nat) : UInt8 := l.getD i 0

/-- The characters of the string from position `pos` up to (excluding) the
first NUL. -/
def charsFrom (l : List UInt8) (pos : Nat) : List UInt8 :=
  (l.drop pos).takeWhile (· != 0)

/-- Modelled from the spec: the C library `strlen(str + pos)` used by
`send_string_chunks` (ulog.h line 480) — the number of bytes from `pos` up to
the first NUL (which, in this memory model, always exists). -/
def strlenFrom (l : List UInt8) (pos : Nat) : Nat := (charsFrom l pos).length

theorem cstr_drop (l : List UInt8) (pos k : Nat) :
    (l.drop pos).getD k 0 = cstr l (pos + k) := by
  simp [cstr, List.getD_eq_getElem?_getD, List.getElem?_drop]

theorem charsFrom_zero (l : List UInt8) (pos : Nat) (h : cstr l pos = 0) :
    charsFrom l pos = [] := by
  rw [charsFrom]
  cases hm : l.drop pos with
  | nil => rfl
  | cons a t =>
    have ha : a = cstr l pos := by
      have := cstr_drop l pos 0
      rw [hm] at this
      simpa using this
    rw [List.takeWhile_cons, if_neg (by simp [ha, h])]

theorem charsFrom_succ (l : List UInt8) (pos : Nat) (h : cstr l pos ≠ 0) :
    charsFrom l pos = cstr l pos :: charsFrom l (pos + 1) := by
  rw [charsFrom, charsFrom]
  cases hm : l.drop pos with
  | nil =>
    have : (0 : UInt8) = cstr l pos := by
      have := cstr_drop l pos 0
      rw [hm] at this
      simpa using this
    exact absurd this.symm h
  | cons a t =>
    have ha : a = cstr l pos := by
      have := cstr_drop l pos 0
      rw [hm] at this
      simpa using this
    have ht : t = l.drop (pos + 1) := by
      have hdd := List.drop_drop 1 pos l
      rw [hm] at hdd
      simp at hdd
      exact hdd
    rw [List.takeWhile_cons, if_pos (by simp [ha, h]), ha, ht]

theorem strlenFrom_zero (l : List UInt8) (pos : Nat) (h : cstr l pos = 0) :
    strlenFrom l pos = 0 := by
  rw [strlenFrom, charsFrom_zero l pos h]
  rfl

theorem strlenFrom_succ (l : List UInt8) (pos : Nat) (h : cstr l pos ≠ 0) :
    strlenFrom l pos = strlenFrom l (pos + 1) + 1 := by
  rw [strlenFrom, strlenFrom, charsFrom_succ l pos h, List.length_cons]

theorem strlenFrom_gt3 (l : List UInt8) (pos : Nat)
    (h0 : cstr l pos ≠ 0) (h1 : cstr l (pos + 1) ≠ 0)
    (h2 : cstr l (pos + 2) ≠ 0) (h3 : cstr l (pos + 3) ≠ 0) :
    3 < strlenFrom l pos := by
  rw [strlenFrom_succ l pos h0, strlenFrom_succ l (pos + 1) h1]
  rw [show pos + 1 + 1 = pos + 2 from rfl, strlenFrom_succ l (pos + 2) h2]
  rw [show pos + 2 + 1 = pos + 3 from rfl, strlenFrom_succ l (pos + 3) h3]
  omega

/-- `send_string_chunks` (ulog.h lines 451-492): emit a C string as 4-byte
chunk packets; the terminator packet carries the NUL; after the first full
chunk the continuation flag is ORed into the id; when pos exceeds
`_ULOG_MAX_STR_LENGTH - 3` and more than 3 characters remain, an ellipsis
terminator `'.' '.' '.' 0` is sent instead.  Returns the (id, payload) pairs
handed to `ulog_detail_enqueue_1..4` in order. -/
def send_string_chunks (l : List UInt8) (id : Nat) (pos : Nat) :
    List (Nat × List UInt8) :=
  if h0 : cstr l pos = 0 then [(id, [0])]
  else if h1 : cstr l (pos + 1) = 0 then [(id, [cstr l pos, 0])]
  else if h2 : cstr l (pos + 2) = 0 then
    [(id, [cstr l pos, cstr l (pos + 1), 0])]
  else if h3 : cstr l (pos + 3) = 0 then
    [(id, [cstr l pos, cstr l (pos + 1), cstr l (pos + 2), 0])]
  else if htr : _ULOG_MAX_STR_LENGTH - 3 < pos ∧ 3 < strlenFrom l pos then
    [(id, [0x2E, 0x2E, 0x2E, 0])]
  else
    (id, [cstr l pos, cstr l (pos + 1), cstr l (pos + 2), cstr l (pos + 3)])
      :: send_string_chunks l (id ||| ULOG_ID_CONTINUATION) (pos + 4)
termination_by _ULOG_MAX_STR_LENGTH - 2 - pos
decreasing_by
  have hgt := strlenFrom_gt3 l pos h0 h1 h2 h3
  rw [show _ULOG_MAX_STR_LENGTH = 16 from rfl] at htr ⊢
  rw [Classical.not_and_iff_or_not_not] at htr
  rcases htr with hp | hs
  · omega
  · exact absurd hgt hs

theorem cstr_spec (l : List UInt8) :
    cstr l (strlenFrom l 0) = 0 ∧ ∀ i, i < strlenFrom l 0 → cstr l i ≠ 0 := by
  induction l with
  | nil =>
    refine ⟨rfl, ?_⟩
    intro i hi
    simp [strlenFrom, charsFrom] at hi
  | cons a t ih =>
    by_cases ha : a = 0
    · have hz : cstr (a :: t) 0 = 0 := by simpa [cstr] using ha
      rw [strlenFrom_zero (a :: t) 0 hz]
      exact ⟨hz, fun i hi => absurd hi (by omega)⟩
    · have hnz : cstr (a :: t) 0 ≠ 0 := by simpa [cstr] using ha
      have h1 : strlenFrom (a :: t) 0 = strlenFrom (a :: t) 1 + 1 :=
        strlenFrom_succ _ 0 hnz
      have h2 : strlenFrom (a :: t) 1 = strlenFrom t 0 := rfl
      constructor
      · rw [h1, h2]
        show (a :: t).getD (strlenFrom t 0 + 1) 0 = 0
        rw [List.getD_cons_succ]
        exact ih.1
      · intro i hi
        rw [h1, h2] at hi
        match i with
        | 0 => exact hnz
        | k + 1 =>
          show (a :: t).getD (k + 1) 0 ≠ 0
          rw [List.getD_cons_succ]
          exact ih.2 k (by omega)

/-- A string whose first `d` bytes from `pos` are nonzero followed by a NUL
has `strlen(str + pos) = d`. -/
theorem strlen_char : ∀ (d : Nat) (m : List UInt8) (pos : Nat),
    (∀ i, i < d → cstr m (pos + i) ≠ 0) → cstr m (pos + d) = 0 →
    strlenFrom m pos = d := by
  intro d
  induction d with
  | zero =>
    intro m pos _ hz
    exact strlenFrom_zero m pos (by simpa using hz)
  | succ d ih =>
    intro m pos hnz hz
    have h0 : cstr m pos ≠ 0 := by simpa using hnz 0 (by omega)
    rw [strlenFrom_succ m pos h0,
      ih m (pos + 1) (fun i hi => by
        have h2 := hnz (i + 1) (by omega)
        have h3 : pos + (i + 1) = pos + 1 + i := by omega
        rwa [h3] at h2)
      (by
        have h3 : pos + (d + 1) = pos + 1 + d := by omega
        rwa [h3] at hz)]

theorem cstr_take (l : List UInt8) (n i : Nat) (hi : i < n) :
    cstr (l.take n) i = cstr l i := by
  simp [cstr, List.getD_eq_getElem?_getD, List.getElem?_take, hi]

/-- Strings whose remaining length fits (no truncation): the concatenated
payloads carry every remaining character followed by the NUL terminator. -/
theorem chunks_flatten_short (l : List UInt8) : ∀ (id pos : Nat),
    pos % 4 = 0 → pos ≤ 16 → strlenFrom l pos + pos ≤ 19 →
    ((send_string_chunks l id pos).map Prod.snd).flatten
      = charsFrom l pos ++ [0] := by
  intro id pos
  induction id, pos using send_string_chunks.induct l with
  | case1 id pos h0 =>
    intro _ _ _
    unfold send_string_chunks
    rw [dif_pos h0]
    simp [charsFrom_zero l pos h0]
  | case2 id pos h0 h1 =>
    intro _ _ _
    unfold send_string_chunks
    rw [dif_neg h0, dif_pos h1]
    simp [charsFrom_succ l pos h0, charsFrom_zero l (pos + 1) h1]
  | case3 id pos h0 h1 h2 =>
    intro _ _ _
    unfold send_string_chunks
    rw [dif_neg h0, dif_neg h1, dif_pos h2]
    simp [charsFrom_succ l pos h0, charsFrom_succ l (pos + 1) h1,
      show pos + 1 + 1 = pos + 2 from rfl, charsFrom_zero l (pos + 2) h2]
  | case4 id pos h0 h1 h2 h3 =>
    intro _ _ _
    unfold send_string_chunks
    rw [dif_neg h0, dif_neg h1, dif_neg h2, dif_pos h3]
    simp [charsFrom_succ l pos h0, charsFrom_succ l (pos + 1) h1,
      show pos + 1 + 1 = pos + 2 from rfl, charsFrom_succ l (pos + 2) h2,
      show pos + 2 + 1 = pos + 3 from rfl, charsFrom_zero l (pos + 3) h3]
  | case5 id pos h0 h1 h2 h3 htr =>
    intro hmod hle hstr
    exfalso
    have hg := strlenFrom_gt3 l pos h0 h1 h2 h3
    have htr2 := htr
    rw [show _ULOG_MAX_STR_LENGTH = 16 from rfl] at htr2
    omega
  | case6 id pos h0 h1 h2 h3 htr ih =>
    intro hmod hle hstr
    have hg := strlenFrom_gt3 l pos h0 h1 h2 h3
    have htr2 := htr
    rw [show _ULOG_MAX_STR_LENGTH = 16 from rfl] at htr2
    have e1 := strlenFrom_succ l pos h0
    have e2 := strlenFrom_succ l (pos + 1) h1
    have e3 := strlenFrom_succ l (pos + 2) h2
    have e4 := strlenFrom_succ l (pos + 3) h3
    rw [show pos + 1 + 1 = pos + 2 from rfl] at e2
    rw [show pos + 2 + 1 = pos + 3 from rfl] at e3
    rw [show pos + 3 + 1 = pos + 4 from rfl] at e4
    unfold send_string_chunks
    rw [dif_neg h0, dif_neg h1, dif_neg h2, dif_neg h3, dif_neg htr]
    simp only [List.map_cons, List.flatten_cons]
    rw [ih (by omega) (by omega) (by omega)]
    rw [charsFrom_succ l pos h0, charsFrom_succ l (pos + 1) h1,
      show pos + 1 + 1 = pos + 2 from rfl, charsFrom_succ l (pos + 2) h2,
      show pos + 2 + 1 = pos + 3 from rfl, charsFrom_succ l (pos + 3) h3,
      show pos + 3 + 1 = pos + 4 from rfl]
    simp

/-- Strings whose remaining length does not fit: the concatenated payloads
carry the characters up to position 16 and then the ellipsis terminator. -/
theorem chunks_flatten_long (l : List UInt8) : ∀ (id pos : Nat),
    pos % 4 = 0 → pos ≤ 16 → 19 < strlenFrom l pos + pos →
    ((send_string_chunks l id pos).map Prod.snd).flatten
      = (charsFrom l pos).take (16 - pos) ++ [0x2E, 0x2E, 0x2E, 0] := by
  intro id pos
  induction id, pos using send_string_chunks.induct l with
  | case1 id pos h0 =>
    intro hmod hle hstr
    exfalso
    rw [strlenFrom_zero l pos h0] at hstr
    omega
  | case2 id pos h0 h1 =>
    intro hmod hle hstr
    exfalso
    rw [strlenFrom_succ l pos h0, strlenFrom_zero l (pos + 1) h1] at hstr
    omega
  | case3 id pos h0 h1 h2 =>
    intro hmod hle hstr
    exfalso
    rw [strlenFrom_succ l pos h0, strlenFrom_succ l (pos + 1) h1,
      show pos + 1 + 1 = pos + 2 from rfl, strlenFrom_zero l (pos + 2) h2] at hstr
    omega
  | case4 id pos h0 h1 h2 h3 =>
    intro hmod hle hstr
    exfalso
    rw [strlenFrom_succ l pos h0, strlenFrom_succ l (pos + 1) h1,
      show pos + 1 + 1 = pos + 2 from rfl, strlenFrom_succ l (pos + 2) h2,
      show pos + 2 + 1 = pos + 3 from rfl, strlenFrom_zero l (pos + 3) h3] at hstr
    omega
  | case5 id pos h0 h1 h2 h3 htr =>
    intro hmod hle hstr
    have htr2 := htr
    rw [show _ULOG_MAX_STR_LENGTH = 16 from rfl] at htr2
    have hpos : pos = 16 := by omega
    unfold send_string_chunks
    rw [dif_neg h0, dif_neg h1, dif_neg h2, dif_neg h3, dif_pos htr]
    subst hpos
    simp
  | case6 id pos h0 h1 h2 h3 htr ih =>
    intro hmod hle hstr
    have hg := strlenFrom_gt3 l pos h0 h1 h2 h3
    have htr2 := htr
    rw [show _ULOG_MAX_STR_LENGTH = 16 from rfl] at htr2
    have e1 := strlenFrom_succ l pos h0
    have e2 := strlenFrom_succ l (pos + 1) h1
    have e3 := strlenFrom_succ l (pos + 2) h2
    have e4 := strlenFrom_succ l (pos + 3) h3
    rw [show pos + 1 + 1 = pos + 2 from rfl] at e2
    rw [show pos + 2 + 1 = pos + 3 from rfl] at e3
    rw [show pos + 3 + 1 = pos + 4 from rfl] at e4
    have hpos : pos ≤ 12 := by omega
    unfold send_string_chunks
    rw [dif_neg h0, dif_neg h1, dif_neg h2, dif_neg h3, dif_neg htr]
    simp only [List.map_cons, List.flatten_cons]
    rw [ih (by omega) (by omega) (by omega)]
    rw [charsFrom_succ l pos h0, charsFrom_succ l (pos + 1) h1,
      show pos + 1 + 1 = pos + 2 from rfl, charsFrom_succ l (pos + 2) h2,
      show pos + 2 + 1 = pos + 3 from rfl, charsFrom_succ l (pos + 3) h3,
      show pos + 3 + 1 = pos + 4 from rfl]
    rw [show 16 - pos = (16 - (pos + 4)) + 1 + 1 + 1 + 1 from by omega]
    simp [List.take_succ_cons]

theorem pos_lt_null (l : List UInt8) (pos : Nat) (hpos : pos ≤ strlenFrom l 0)
    (h : cstr l pos ≠ 0) : pos + 1 ≤ strlenFrom l 0 := by
  rcases Nat.lt_or_ge pos (strlenFrom l 0) with hlt | hge
  · omega
  · have he : pos = strlenFrom l 0 := by omega
    rw [he] at h
    exact absurd (cstr_spec l).1 h

/-- The chunker never reads the string past its terminating NUL: its output
is unchanged when the string memory is cut right after the NUL. -/
theorem chunks_read_bound (l : List UInt8) : ∀ (id pos : Nat),
    pos ≤ strlenFrom l 0 →
    send_string_chunks l id pos
      = send_string_chunks (l.take (strlenFrom l 0 + 1)) id pos := by
  have hagree : ∀ i, i ≤ strlenFrom l 0 →
      cstr (l.take (strlenFrom l 0 + 1)) i = cstr l i :=
    fun i hi => cstr_take l _ i (by omega)
  have hslen : ∀ pos, pos ≤ strlenFrom l 0 →
      strlenFrom l pos = strlenFrom l 0 - pos := by
    intro pos hpos
    refine strlen_char (strlenFrom l 0 - pos) l pos ?_ ?_
    · intro i hi
      exact (cstr_spec l).2 (pos + i) (by omega)
    · rw [show pos + (strlenFrom l 0 - pos) = strlenFrom l 0 from by omega]
      exact (cstr_spec l).1
  have hslen2 : ∀ pos, pos ≤ strlenFrom l 0 →
      strlenFrom (l.take (strlenFrom l 0 + 1)) pos = strlenFrom l 0 - pos := by
    intro pos hpos
    refine strlen_char (strlenFrom l 0 - pos) _ pos ?_ ?_
    · intro i hi
      rw [hagree (pos + i) (by omega)]
      exact (cstr_spec l).2 (pos + i) (by omega)
    · rw [show pos + (strlenFrom l 0 - pos) = strlenFrom l 0 from by omega,
        hagree (strlenFrom l 0) le_rfl]
      exact (cstr_spec l).1
  intro id pos
  induction id, pos using send_string_chunks.induct l with
  | case1 id pos h0 =>
    intro hpos
    unfold send_string_chunks
    rw [dif_pos h0,
      dif_pos (show cstr (l.take (strlenFrom l 0 + 1)) pos = 0 by
        rw [hagree pos hpos]; exact h0)]
  | case2 id pos h0 h1 =>
    intro hpos
    have hp1 := pos_lt_null l pos hpos h0
    unfold send_string_chunks
    rw [dif_neg h0, dif_pos h1]
    rw [dif_neg (show ¬ cstr (l.take (strlenFrom l 0 + 1)) pos = 0 by
        rw [hagree pos hpos]; exact h0),
      dif_pos (show cstr (l.take (strlenFrom l 0 + 1)) (pos + 1) = 0 by
        rw [hagree (pos + 1) hp1]; exact h1)]
    rw [hagree pos hpos]
  | case3 id pos h0 h1 h2 =>
    intro hpos
    have hp1 := pos_lt_null l pos hpos h0
    have hp2 := pos_lt_null l (pos + 1) hp1 h1
    unfold send_string_chunks
    rw [dif_neg h0, dif_neg h1, dif_pos h2]
    rw [dif_neg (show ¬ cstr (l.take (strlenFrom l 0 + 1)) pos = 0 by
        rw [hagree pos hpos]; exact h0),
      dif_neg (show ¬ cstr (l.take (strlenFrom l 0 + 1)) (pos + 1) = 0 by
        rw [hagree (pos + 1) hp1]; exact h1),
      dif_pos (show cstr (l.take (strlenFrom l 0 + 1)) (pos + 2) = 0 by
        rw [hagree (pos + 2) hp2]; exact h2)]
    rw [hagree pos hpos, hagree (pos + 1) hp1]
  | case4 id pos h0 h1 h2 h3 =>
    intro hpos
    have hp1 := pos_lt_null l pos hpos h0
    have hp2 := pos_lt_null l (pos + 1) hp1 h1
    have hp3 := pos_lt_null l (pos + 2) hp2 h2
    unfold send_string_chunks
    rw [dif_neg h0, dif_neg h1, dif_neg h2, dif_pos h3]
    rw [dif_neg (show ¬ cstr (l.take (strlenFrom l 0 + 1)) pos = 0 by
        rw [hagree pos hpos]; exact h0),
      dif_neg (show ¬ cstr (l.take (strlenFrom l 0 + 1)) (pos + 1) = 0 by
        rw [hagree (pos + 1) hp1]; exact h1),
      dif_neg (show ¬ cstr (l.take (strlenFrom l 0 + 1)) (pos + 2) = 0 by
        rw [hagree (pos + 2) hp2]; exact h2),
      dif_pos (show cstr (l.take (strlenFrom l 0 + 1)) (pos + 3) = 0 by
        rw [hagree (pos + 3) hp3]; exact h3)]
    rw [hagree pos hpos, hagree (pos + 1) hp1, hagree (pos + 2) hp2]
  | case5 id pos h0 h1 h2 h3 htr =>
    intro hpos
    have hp1 := pos_lt_null l pos hpos h0
    have hp2 := pos_lt_null l (pos + 1) hp1 h1
    have hp3 := pos_lt_null l (pos + 2) hp2 h2
    have htr2 : _ULOG_MAX_STR_LENGTH - 3 < pos
        ∧ 3 < strlenFrom (l.take (strlenFrom l 0 + 1)) pos := by
      refine ⟨htr.1, ?_⟩
      rw [hslen2 pos hpos, ← hslen pos hpos]
      exact htr.2
    unfold send_string_chunks
    rw [dif_neg h0, dif_neg h1, dif_neg h2, dif_neg h3, dif_pos htr]
    rw [dif_neg (show ¬ cstr (l.take (strlenFrom l 0 + 1)) pos = 0 by
        rw [hagree pos hpos]; exact h0),
      dif_neg (show ¬ cstr (l.take (strlenFrom l 0 + 1)) (pos + 1) = 0 by
        rw [hagree (pos + 1) hp1]; exact h1),
      dif_neg (show ¬ cstr (l.take (strlenFrom l 0 + 1)) (pos + 2) = 0 by
        rw [hagree (pos + 2) hp2]; exact h2),
      dif_neg (show ¬ cstr (l.take (strlenFrom l 0 + 1)) (pos + 3) = 0 by
        rw [hagree (pos + 3) hp3]; exact h3),
      dif_pos htr2]
  | case6 id pos h0 h1 h2 h3 htr ih =>
    intro hpos
    have hp1 := pos_lt_null l pos hpos h0
    have hp2 := pos_lt_null l (pos + 1) hp1 h1
    have hp3 := pos_lt_null l (pos + 2) hp2 h2
    have hp4 := pos_lt_null l (pos + 3) hp3 h3
    have htr2 : ¬ (_ULOG_MAX_STR_LENGTH - 3 < pos
        ∧ 3 < strlenFrom (l.take (strlenFrom l 0 + 1)) pos) := by
      intro hcon
      refine htr ⟨hcon.1, ?_⟩
      rw [hslen pos hpos, ← hslen2 pos hpos]
      exact hcon.2
    unfold send_string_chunks
    rw [dif_neg h0, dif_neg h1, dif_neg h2, dif_neg h3, dif_neg htr]
    rw [dif_neg (show ¬ cstr (l.take (strlenFrom l 0 + 1)) pos = 0 by
        rw [hagree pos hpos]; exact h0),
      dif_neg (show ¬ cstr (l.take (strlenFrom l 0 + 1)) (pos + 1) = 0 by
        rw [hagree (pos + 1) hp1]; exact h1),
      dif_neg (show ¬ cstr (l.take (strlenFrom l 0 + 1)) (pos + 2) = 0 by
        rw [hagree (pos + 2) hp2]; exact h2),
      dif_neg (show ¬ cstr (l.take (strlenFrom l 0 + 1)) (pos + 3) = 0 by
        rw [hagree (pos + 3) hp3]; exact h3),
      dif_neg htr2]
    rw [hagree pos hpos, hagree (pos + 1) hp1, hagree (pos + 2) hp2,
      hagree (pos + 3) hp3, ih hp4]

/-- C4 (amended): truncation fires only for strings longer than 19
characters: for those, the packet chain carries exactly the first 16
characters and ends with the ellipsis terminator `'.' '.' '.' 0x00`.  Strings
of at most 19 characters — including 17, 18 and 19 character strings — are
transmitted in full, every character followed by the NUL terminator.  The
encoder reads no byte of the string beyond its terminating NUL: the chain is
unchanged when the string memory is cut right after the NUL (the `strlen`
in the truncation guard does scan up to the NUL, wherever it is). -/
theorem send_string_truncation (l : List UInt8) (id : Nat) :
    (19 < strlenFrom l 0 →
      ((send_string_chunks l id 0).map Prod.snd).flatten
        = (charsFrom l 0).take 16 ++ [0x2E, 0x2E, 0x2E, 0])
    ∧ (strlenFrom l 0 ≤ 19 →
      ((send_string_chunks l id 0).map Prod.snd).flatten = charsFrom l 0 ++ [0])
    ∧ send_string_chunks l id 0
        = send_string_chunks (l.take (strlenFrom l 0 + 1)) id 0 := by
  refine ⟨?_, ?_, ?_⟩
  · intro h
    have hres := chunks_flatten_long l id 0 (by omega) (by omega) (by omega)
    simpa using hres
  · intro h
    exact chunks_flatten_short l id 0 (by omega) (by omega) (by omega)
  · exact chunks_read_bound l id 0 (by omega)

/-- An all-`'a'` test string of length n. -/
def strA (n : Nat) : List UInt8 := List.replicate n 0x61

theorem send_string_truncation_witness :
    (19 < strlenFrom (strA 22) 0
      ∧ ((send_string_chunks (strA 22) 5 0).map Prod.snd).flatten
          = (charsFrom (strA 22) 0).take 16 ++ [0x2E, 0x2E, 0x2E, 0])
    ∧ (strlenFrom (strA 17) 0 ≤ 19
      ∧ ((send_string_chunks (strA 17) 5 0).map Prod.snd).flatten
          = charsFrom (strA 17) 0 ++ [0]) :=
  ⟨⟨by decide, (send_string_truncation (strA 22) 5).1 (by decide)⟩,
    ⟨by decide, (send_string_truncation (strA 17) 5).2.1 (by decide)⟩⟩

/-- C4 counterexample: for the 17-character string `"aaaaaaaaaaaaaaaaa"`
(longer than `MAX_STRING_LENGTH = 16`), the emitted chain carries all 17
characters followed by the NUL — it is not cut to the first 16 characters and
does not end with the `'.' '.' '.' 0x00` terminator, because the truncation
guard `pos > MAX_STRING_LENGTH - 3` first holds at `pos = 16`, where a string
of 17 to 19 characters ends within the chunk and is sent whole. -/
theorem send_string_seventeen_not_truncated :
    ((send_string_chunks (strA 17) 5 0).map Prod.snd).flatten
        = List.replicate 17 0x61 ++ [0]
    ∧ ¬ ((send_string_chunks (strA 17) 5 0).map Prod.snd).flatten
        = (charsFrom (strA 17) 0).take 16 ++ [0x2E, 0x2E, 0x2E, 0] := by
  have hres := chunks_flatten_short (strA 17) 5 0 (by omega) (by omega) (by decide)
  have hchars : charsFrom (strA 17) 0 = List.replicate 17 0x61 := by decide
  rw [hres, hchars]
  refine ⟨rfl, ?_⟩
  decide

/-- QUEUE_DEPTH of ulog.cpp (`ULOG_QUEUE_SIZE` defaults to 16 there). -/
def CPP_QUEUE_DEPTH : Nat := 16

/-- Shared state of ulog.cpp: one-byte-id packets, no overrun machinery. -/
structure CppState where
  log_head : Nat
  log_tail : Nat
  buffer : Nat → LogPacket

/-- `reserve_log_packet` of ulog.cpp (lines 87-107): probe the ring and, on
success or failure alike, call `asx::reactor::notify_from_isr` before
returning; the Bool records that the notification was issued. -/
def cpp_reserve_log_packet (s : CppState) : Option Nat × CppState × Bool :=
  if (s.log_head + 1) % CPP_QUEUE_DEPTH ≠ s.log_tail then
    (some s.log_head, { s with log_head := (s.log_head + 1) % CPP_QUEUE_DEPTH }, true)
  else
    (none, s, true)

/-- Packet body of the C++ variant: one id byte, then the data bytes. -/
def cpp_mkPacketBody (id : Nat) (vals : List UInt8) : List UInt8 :=
  UInt8.ofNat (id % 256) :: vals

/-- `ulog_detail_enqueue` of ulog.cpp (lines 189-194): the zero-argument
enqueue; the notification happens inside `reserve_log_packet`. -/
def cpp_ulog_detail_enqueue (id : Nat) (s : CppState) : CppState × Bool :=
  match cpp_reserve_log_packet s with
  | (some slot, s1, ntf) =>
    ({ s1 with buffer := fun j =>
        if j = slot then ⟨1 + 0, cpp_mkPacketBody id []⟩ else s1.buffer j }, ntf)
  | (none, s1, ntf) => (s1, ntf)

/-- `ulog_detail_enqueue_4` of ulog.cpp (lines 223-232): stores
`payload_len = 1 + 4`, the largest packet body of the C++ variant. -/
def cpp_ulog_detail_enqueue_4 (id : Nat) (v0 v1 v2 v3 : UInt8) (s : CppState) :
    CppState × Bool :=
  match cpp_reserve_log_packet s with
  | (some slot, s1, ntf) =>
    ({ s1 with buffer := fun j =>
        if j = slot then ⟨1 + 4, cpp_mkPacketBody id [v0, v1, v2, v3]⟩
        else s1.buffer j }, ntf)
  | (none, s1, ntf) => (s1, ntf)

/-- Size of `tx_encoded` in ulog.cpp line 74: `sizeof(LogPacket::data) + 2`,
i.e. the id byte is not counted. -/
def cpp_tx_encoded_size : Nat := 4 + 2

/-- Size of `tx_encoded` in ulog.c line 69:
`MAX_PAYLOAD + sizeof(ULOG_ID_TYPE) + 2`. -/
def c_tx_encoded_size : Nat := 4 + 2 + 2

/-- C3 evaluation: in the C variant the zero-argument `ulog_detail_enqueue`
never calls `_ULOG_PORT_NOTIFY` — not even on a successful enqueue, as the
evaluation at the empty initial queue exhibits (the packet is placed and the
head advances, yet no notification happens) — while `ulog_detail_enqueue_1..4`
notify exactly when the reservation succeeds, and in the C++ variant every
enqueue notifies (inside `reserve_log_packet`).  The claim (and the spec's
canonical choice) that every successful enqueue notifies therefore fails on
the C variant's zero-argument path. -/
theorem enqueue_notify_behavior :
    (∀ (id : Nat) (s : UlogState), (ulog_detail_enqueue id s).2 = false)
    ∧ ((ulog_detail_enqueue 5 ulogInitState).1.log_head = 1
      ∧ slotBody ((ulog_detail_enqueue 5 ulogInitState).1.buffer 0) = mkPacketBody 5 [])
    ∧ (∀ (id : Nat) (vals : List UInt8) (s : UlogState),
        (ulog_detail_enqueue_n id vals s).2 = (reserve_log_packet s).1.isSome)
    ∧ (∀ (id : Nat) (s : CppState), (cpp_ulog_detail_enqueue id s).2 = true) := by
  refine ⟨?_, ⟨by decide, by decide⟩, ?_, ?_⟩
  · intro id s
    cases h : reserve_log_packet s with
    | mk o s1 =>
      rw [ulog_detail_enqueue, h]
      cases o <;> rfl
  · intro id vals s
    cases h : reserve_log_packet s with
    | mk o s1 =>
      rw [ulog_detail_enqueue_n, h]
      cases o <;> rfl
  · intro id s
    rw [cpp_ulog_detail_enqueue]
    by_cases hc : (s.log_head + 1) % CPP_QUEUE_DEPTH ≠ s.log_tail
    · rw [cpp_reserve_log_packet, if_pos hc]
    · rw [cpp_reserve_log_packet, if_neg hc]

/-- C2: in the C variant every frame the drain can build stays inside the
8-byte `tx_encoded` (bodies are at most 6 bytes, frames `length + 2 ≤ 8`,
highest index written `length + 1 ≤ 7`); but in the C++ variant the scratch
buffer is only `sizeof(LogPacket::data) + 2 = 6` bytes while a full packet of
`ulog_detail_enqueue_4` has a 5-byte body whose 7-byte frame makes
`cobs_encode` write index 6 — one byte past the end of the buffer. -/
theorem cobs_scratch_bounds :
    (∀ (buf0 : Nat → UInt8) (input : List UInt8), input.length ≤ 6 →
        (cobs_encode buf0 input).writeIndex = input.length + 2
        ∧ (cobs_encode buf0 input).maxWritten < c_tx_encoded_size)
    ∧ ((cpp_mkPacketBody 1 [1, 2, 3, 4]).length = 5
      ∧ (cobs_encode (fun _ => 0) (cpp_mkPacketBody 1 [1, 2, 3, 4])).maxWritten = 6
      ∧ ¬ ((cobs_encode (fun _ => 0) (cpp_mkPacketBody 1 [1, 2, 3, 4])).maxWritten
            < cpp_tx_encoded_size)) := by
  constructor
  · intro buf0 input h
    refine ⟨cobs_encode_writeIndex buf0 input (by omega), ?_⟩
    rw [cobs_encode_maxWritten buf0 input (by omega),
      show c_tx_encoded_size = 8 from rfl]
    omega
  · exact ⟨by decide, by decide, by decide⟩

theorem cobs_scratch_bounds_witness :
    (([0x12, 0xA6, 0x34, 0x56, 0x78, 0x9A] : List UInt8).length ≤ 6
      ∧ ((cobs_encode (fun _ => 0) [0x12, 0xA6, 0x34, 0x56, 0x78, 0x9A]).writeIndex
            = ([0x12, 0xA6, 0x34, 0x56, 0x78, 0x9A] : List UInt8).length + 2
        ∧ (cobs_encode (fun _ => 0) [0x12, 0xA6, 0x34, 0x56, 0x78, 0x9A]).maxWritten
            < c_tx_encoded_size)) :=
  ⟨by decide,
    cobs_scratch_bounds.1 (fun _ => 0) [0x12, 0xA6, 0x34, 0x56, 0x78, 0x9A] (by decide)⟩

/-!
## Callsite identifiers (C5)

`ulog_port.h` computes a record id from the address of the `.balign 256`
aligned CallSite record emitted into the `.logs` section.
-/

/-- `ulog_id_rel` (ulog_port.h lines 40-45, x86-64 variant): the identifier of
the CallSite record at address `addr`, relative to the `.logs` section start
`base`: `(uint16_t)((addr - base) >> 8)`. -/
def ulog_id_rel (base addr : Nat) : Nat := ((addr - base) >>> 8) % 65536

/-- `ulog_id_rel` (ulog_avr_none_gnu.h lines 62-65, AVR variant):
`(uint8_t)((addr >> 8) & 0xFF)` — no subtraction, AVR addresses are fixed. -/
def ulog_id_rel_avr (addr : Nat) : Nat := (addr >>> 8) &&& 0xFF

/-- C5: callsite identifier uniqueness.  Let `B` be the address of the first
CallSite record (so `B` is 256-aligned, by the `.balign 256` directive of
`_ULOG_EMIT_RECORD`) and let `A1`, `A2` be record addresses at or above `B` in
distinct 256-byte buckets.  If the record offsets stay within the 16-bit id
capacity (offset below 2^24, i.e. at most 65536 records), the x86-64 ids
`(uint16_t)((A - B) >> 8)` are distinct; and on AVR, where addresses fit in
16 bits, the ids `(uint8_t)((A >> 8) & 0xFF)` are distinct as well. -/
theorem callsite_ids_distinct (B A1 A2 : Nat)
    (hB : B % 256 = 0) (h1 : B ≤ A1) (h2 : B ≤ A2)
    (hbucket : A1 / 256 ≠ A2 / 256)
    (hcap1 : A1 - B < 16777216) (hcap2 : A2 - B < 16777216) :
    ulog_id_rel B A1 ≠ ulog_id_rel B A2 ∧
    (A1 < 65536 → A2 < 65536 → ulog_id_rel_avr A1 ≠ ulog_id_rel_avr A2) := by
  constructor
  · unfold ulog_id_rel
    rw [Nat.shiftRight_eq_div_pow, Nat.shiftRight_eq_div_pow]
    rw [show (2 : Nat) ^ 8 = 256 from rfl]
    omega
  · intro hA1 hA2
    have e1 : ulog_id_rel_avr A1 = (A1 >>> 8) % 256 :=
      Nat.and_pow_two_sub_one_eq_mod _ 8
    have e2 : ulog_id_rel_avr A2 = (A2 >>> 8) % 256 :=
      Nat.and_pow_two_sub_one_eq_mod _ 8
    have s1 : A1 >>> 8 = A1 / 256 := by
      rw [Nat.shiftRight_eq_div_pow]
    have s2 : A2 >>> 8 = A2 / 256 := by
      rw [Nat.shiftRight_eq_div_pow]
    rw [e1, e2, s1, s2]
    omega

theorem callsite_ids_distinct_witness :
    ulog_id_rel 4096 4096 ≠ ulog_id_rel 4096 4352 ∧
    (4096 < 65536 → 4352 < 65536 →
      ulog_id_rel_avr 4096 ≠ ulog_id_rel_avr 4352) :=
  callsite_ids_distinct 4096 4096 4352 (by decide) (by decide) (by decide) (by decide)
    (by decide) (by decide)

/-!
## Multi-argument continuation packets (C7)

The `ULOG` macro emits one packet per argument (one per 4-byte chunk for a
string argument); only the first packet carries the bare id.
-/

/-- A log-call argument as the C/C++ front ends classify it: a 1-, 2- or
4-byte scalar (`split_to_u8_tuple` / `_ulog_dispatch_u8/u16/u32`), or a
C-string argument. -/
inductive UlogArg where
  | scalar1 (v0 : UInt8)
  | scalar2 (v0 v1 : UInt8)
  | scalar4 (v0 v1 v2 v3 : UInt8)
  | str (l : List UInt8)
deriving DecidableEq

/-- `emit_single_arg` (ulog.h lines 494-522): the (id, payload) pairs handed
to `ulog_detail_enqueue_n` for one argument — one packet for a scalar, the
`send_string_chunks` packets for a string. -/
def emit_single_arg (id : Nat) : UlogArg → List (Nat × List UInt8)
  | .scalar1 v0 => [(id, [v0])]
  | .scalar2 v0 v1 => [(id, [v0, v1])]
  | .scalar4 v0 v1 v2 v3 => [(id, [v0, v1, v2, v3])]
  | .str l => send_string_chunks l id 0

/-- The per-argument packets of the fold expression in the `ULOG` macro
(ulog.h lines 544-548) for the arguments after the first: each one is
emitted with `id | ULOG_ID_CONTINUATION`.  The C dispatchers
`_ULOG_DISPATCH_2..8` (ulog.h lines 245-327) pass the same flag. -/
def ulog_emit_tail (idc : Nat) : List UlogArg → List (Nat × List UInt8)
  | [] => []
  | a :: rest => emit_single_arg idc a ++ ulog_emit_tail idc rest

/-- The packets of one `ULOG(level, fmt, args...)` call (ulog.h lines
526-551, and `_ULOG_DISPATCH_2..8` for the C front end): the first argument
is emitted with the bare `id` (`Is == 0 ? id : ...`), every later argument
with `id | ULOG_ID_CONTINUATION`. -/
def ulog_emit_args (id : Nat) : List UlogArg → List (Nat × List UInt8)
  | [] => []
  | a :: rest =>
    emit_single_arg id a ++ ulog_emit_tail (id ||| ULOG_ID_CONTINUATION) rest

/-- Number of packets one argument contributes: 1 for a scalar, one per
4-byte chunk (terminator included) for a string. -/
def chunkCount (a : UlogArg) : Nat := (emit_single_arg 0 a).length

theorem send_string_chunks_length_id (l : List UInt8) : ∀ (id pos : Nat),
    ∀ id', (send_string_chunks l id pos).length
      = (send_string_chunks l id' pos).length := by
  intro id pos
  induction id, pos using send_string_chunks.induct l with
  | case1 id pos h0 =>
    intro id'
    unfold send_string_chunks
    rw [dif_pos h0, dif_pos h0]
    rfl
  | case2 id pos h0 h1 =>
    intro id'
    unfold send_string_chunks
    rw [dif_neg h0, dif_neg h0, dif_pos h1, dif_pos h1]
    rfl
  | case3 id pos h0 h1 h2 =>
    intro id'
    unfold send_string_chunks
    rw [dif_neg h0, dif_neg h0, dif_neg h1, dif_neg h1, dif_pos h2, dif_pos h2]
    rfl
  | case4 id pos h0 h1 h2 h3 =>
    intro id'
    unfold send_string_chunks
    rw [dif_neg h0, dif_neg h0, dif_neg h1, dif_neg h1, dif_neg h2, dif_neg h2, dif_pos h3, dif_pos h3]
    rfl
  | case5 id pos h0 h1 h2 h3 htr =>
    intro id'
    unfold send_string_chunks
    rw [dif_neg h0, dif_neg h0, dif_neg h1, dif_neg h1, dif_neg h2, dif_neg h2, dif_neg h3, dif_neg h3, dif_pos htr, dif_pos htr]
    rfl
  | case6 id pos h0 h1 h2 h3 htr ih =>
    intro id'
    unfold send_string_chunks
    rw [dif_neg h0, dif_neg h0, dif_neg h1, dif_neg h1, dif_neg h2, dif_neg h2, dif_neg h3, dif_neg h3, dif_neg htr, dif_neg htr]
    simp only [List.length_cons]
    rw [ih (id' ||| ULOG_ID_CONTINUATION)]

theorem send_string_chunks_ids (l : List UInt8) : ∀ (id pos : Nat),
    ∃ payload rest, send_string_chunks l id pos = (id, payload) :: rest ∧
      ∀ r ∈ rest, r.1 = id ||| ULOG_ID_CONTINUATION := by
  intro id pos
  induction id, pos using send_string_chunks.induct l with
  | case1 id pos h0 =>
    refine ⟨[0], [], ?_, by simp⟩
    unfold send_string_chunks
    rw [dif_pos h0]
  | case2 id pos h0 h1 =>
    refine ⟨[cstr l pos, 0], [], ?_, by simp⟩
    unfold send_string_chunks
    rw [dif_neg h0, dif_pos h1]
  | case3 id pos h0 h1 h2 =>
    refine ⟨[cstr l pos, cstr l (pos + 1), 0], [], ?_, by simp⟩
    unfold send_string_chunks
    rw [dif_neg h0, dif_neg h1, dif_pos h2]
  | case4 id pos h0 h1 h2 h3 =>
    refine ⟨[cstr l pos, cstr l (pos + 1), cstr l (pos + 2), 0], [], ?_, by simp⟩
    unfold send_string_chunks
    rw [dif_neg h0, dif_neg h1, dif_neg h2, dif_pos h3]
  | case5 id pos h0 h1 h2 h3 htr =>
    refine ⟨[0x2E, 0x2E, 0x2E, 0], [], ?_, by simp⟩
    unfold send_string_chunks
    rw [dif_neg h0, dif_neg h1, dif_neg h2, dif_neg h3, dif_pos htr]
  | case6 id pos h0 h1 h2 h3 htr ih =>
    obtain ⟨payload', rest', heq, hrest⟩ := ih
    refine ⟨[cstr l pos, cstr l (pos + 1), cstr l (pos + 2), cstr l (pos + 3)],
      (id ||| ULOG_ID_CONTINUATION, payload') :: rest', ?_, ?_⟩
    · unfold send_string_chunks
      rw [dif_neg h0, dif_neg h1, dif_neg h2, dif_neg h3, dif_neg htr, heq]
    · intro r hr
      rcases List.mem_cons.mp hr with hh | ht
      · rw [hh]
      · have := hrest r ht
        rw [this, Nat.lor_assoc, Nat.or_self]

/-- Setting an already-set continuation flag is a no-op (bit 15 OR). -/
theorem lor_continuation_absorb (id : Nat) :
    (id ||| ULOG_ID_CONTINUATION) ||| ULOG_ID_CONTINUATION
      = id ||| ULOG_ID_CONTINUATION := by
  rw [Nat.lor_assoc, Nat.or_self]

/-- For a 15-bit base id, ORing in the continuation flag adds 0x8000. -/
theorem lor_continuation_add (id : Nat) (hid : id < 32768) :
    id ||| ULOG_ID_CONTINUATION = id + 32768 := by
  rw [show ULOG_ID_CONTINUATION = 32768 from rfl]
  have h15 : id < 2 ^ 15 := hid
  have h2 := Nat.mul_add_lt_is_or h15 1
  simp only [Nat.mul_one] at h2
  rw [Nat.lor_comm, show (32768 : Nat) = 2 ^ 15 from rfl]
  omega

theorem emit_single_arg_head (id : Nat) (a : UlogArg) :
    ∃ payload rest, emit_single_arg id a = (id, payload) :: rest ∧
      ∀ r ∈ rest, r.1 = id ||| ULOG_ID_CONTINUATION := by
  cases a with
  | scalar1 v0 => exact ⟨[v0], [], rfl, by simp⟩
  | scalar2 v0 v1 => exact ⟨[v0, v1], [], rfl, by simp⟩
  | scalar4 v0 v1 v2 v3 => exact ⟨[v0, v1, v2, v3], [], rfl, by simp⟩
  | str l => exact send_string_chunks_ids l id 0

theorem emit_single_arg_length (id id' : Nat) (a : UlogArg) :
    (emit_single_arg id a).length = (emit_single_arg id' a).length := by
  cases a with
  | scalar1 v0 => rfl
  | scalar2 v0 v1 => rfl
  | scalar4 v0 v1 v2 v3 => rfl
  | str l => exact send_string_chunks_length_id l id 0 id'

theorem emit_single_arg_chunkCount (id : Nat) (a : UlogArg) :
    (emit_single_arg id a).length = chunkCount a :=
  emit_single_arg_length id 0 a

theorem ulog_emit_tail_length (idc : Nat) : ∀ args : List UlogArg,
    (ulog_emit_tail idc args).length = (args.map chunkCount).sum := by
  intro args
  induction args with
  | nil => rfl
  | cons a rest ih =>
    simp only [ulog_emit_tail, List.length_append, List.map_cons,
      List.sum_cons, ih, emit_single_arg_chunkCount]

theorem ulog_emit_tail_ids (idc : Nat)
    (habs : idc ||| ULOG_ID_CONTINUATION = idc) :
    ∀ args : List UlogArg, ∀ r ∈ ulog_emit_tail idc args, r.1 = idc := by
  intro args
  induction args with
  | nil =>
    intro r hr
    simp [ulog_emit_tail] at hr
  | cons a rest ih =>
    intro r hr
    rcases List.mem_append.mp hr with hl | hrt
    · obtain ⟨payload, rest', heq, hrest⟩ := emit_single_arg_head idc a
      rw [heq] at hl
      rcases List.mem_cons.mp hl with hh | ht
      · rw [hh]
      · rw [hrest r ht, habs]
    · exact ih r hrt

/-- C7: for a log call with k ≥ 2 arguments whose enqueues all succeed,
exactly k packets are produced — one per scalar argument (chunkCount 1), one
per 4-byte chunk for a string; all packets agree with the base id on the low
15 bits; the first packet carries the bare id (continuation flag, bit 15,
clear since id < 0x8000) and every later packet carries
id ||| ULOG_ID_CONTINUATION, which has bit 15 set. -/
theorem multi_arg_continuation (id : Nat) (args : List UlogArg)
    (hid : id < 32768) (hk : 2 ≤ args.length) :
    (ulog_emit_args id args).length = (args.map chunkCount).sum ∧
    (∀ v0, chunkCount (UlogArg.scalar1 v0) = 1) ∧
    (∀ v0 v1, chunkCount (UlogArg.scalar2 v0 v1) = 1) ∧
    (∀ v0 v1 v2 v3, chunkCount (UlogArg.scalar4 v0 v1 v2 v3) = 1) ∧
    (∀ p ∈ ulog_emit_args id args, p.1 % 32768 = id) ∧
    (∃ payload rest, ulog_emit_args id args = (id, payload) :: rest ∧
      rest ≠ [] ∧ ∀ r ∈ rest, r.1 = id ||| ULOG_ID_CONTINUATION ∧ 32768 ≤ r.1) := by
  obtain ⟨a, rest, rfl⟩ : ∃ a rest, args = a :: rest := by
    cases args with
    | nil => simp at hk
    | cons a rest => exact ⟨a, rest, rfl⟩
  obtain ⟨b, rest2, rfl⟩ : ∃ b rest2, rest = b :: rest2 := by
    cases rest with
    | nil => simp at hk
    | cons b rest2 => exact ⟨b, rest2, rfl⟩
  have habs := lor_continuation_absorb id
  have hflag := lor_continuation_add id hid
  obtain ⟨payload, rest', heq, hrest'⟩ := emit_single_arg_head id a
  have hargs : ulog_emit_args id (a :: b :: rest2)
      = (id, payload)
        :: (rest' ++ ulog_emit_tail (id ||| ULOG_ID_CONTINUATION) (b :: rest2)) := by
    simp only [ulog_emit_args, heq, List.cons_append]
  have htailids :=
    ulog_emit_tail_ids (id ||| ULOG_ID_CONTINUATION) habs (b :: rest2)
  have hrfin : ∀ r ∈ rest'
        ++ ulog_emit_tail (id ||| ULOG_ID_CONTINUATION) (b :: rest2),
      r.1 = id ||| ULOG_ID_CONTINUATION := by
    intro r hr
    rcases List.mem_append.mp hr with h | h
    · exact hrest' r h
    · exact htailids r h
  refine ⟨?_, fun v0 => rfl, fun v0 v1 => rfl, fun v0 v1 v2 v3 => rfl, ?_, ?_⟩
  · simp only [ulog_emit_args, List.length_append, List.map_cons, List.sum_cons]
    rw [emit_single_arg_chunkCount id a,
      ulog_emit_tail_length (id ||| ULOG_ID_CONTINUATION) (b :: rest2),
      List.map_cons, List.sum_cons]
  · intro p hp
    rw [hargs] at hp
    rcases List.mem_cons.mp hp with hh | ht
    · rw [hh]
      exact Nat.mod_eq_of_lt hid
    · have h := hrfin p ht
      rw [h, hflag]
      omega
  · refine ⟨payload, _, hargs, ?_, ?_⟩
    · obtain ⟨pb, rb, heqb, _⟩ := emit_single_arg_head (id ||| ULOG_ID_CONTINUATION) b
      simp [ulog_emit_tail, heqb]
    · intro r hr
      refine ⟨hrfin r hr, ?_⟩
      rw [hrfin r hr, hflag]
      omega

def argsExample : List UlogArg :=
  [UlogArg.scalar1 0xAA, UlogArg.str [0x61, 0x62, 0x63, 0x64, 0x65]]

theorem multi_arg_continuation_witness :
    (ulog_emit_args 291 argsExample).length = (argsExample.map chunkCount).sum ∧
    (∀ v0, chunkCount (UlogArg.scalar1 v0) = 1) ∧
    (∀ v0 v1, chunkCount (UlogArg.scalar2 v0 v1) = 1) ∧
    (∀ v0 v1 v2 v3, chunkCount (UlogArg.scalar4 v0 v1 v2 v3) = 1) ∧
    (∀ p ∈ ulog_emit_args 291 argsExample, p.1 % 32768 = 291) ∧
    (∃ payload rest, ulog_emit_args 291 argsExample = (291, payload) :: rest ∧
      rest ≠ [] ∧ ∀ r ∈ rest, r.1 = 291 ||| ULOG_ID_CONTINUATION ∧ 32768 ≤ r.1) :=
  multi_arg_continuation 291 argsExample (by decide) (by decide)
